import Mathlib

/-!
Tufao `ClassHandlerManager`.

A shallow embedding of `src/classhandlermanager.cpp`: handler registration
(`registerHandler`), signature-hash method selection (`selectMethod`), argument
marshalling (`processRequest`), URL routing (`handleRequest`) and the list of
plugin search locations (`addPluginLocation`, the start of the constructor).

Conventions of the embedding

* `uint` arithmetic is `Nat` arithmetic reduced modulo `2 ^ 32`.
* Qt's `qHash(QString)` and `QVariant::canConvert` are library functions; every
  definition takes them as the parameters `qHash` and `canConvert`.
* An operation whose C++ counterpart reads outside a container or dereferences
  a null pointer returns `none`.
* Calls that leave the manager (`ClassHandler::init`, `HttpServerRequest::setContext`,
  `QMetaMethod::invoke`) are appended to the `calls` log of the state.
-/

namespace Tufao

/-- The Qt string type. -/
abbrev QString := String

/-- A `QHash<K, V>`: an association list holding every key at most once. -/
abbrev QHash (K V : Type) := List (K × V)

namespace QHash

variable {K V : Type} [DecidableEq K]

/-- Lookup of a key (`QHash::find`). -/
def find? : QHash K V → K → Option V
  | [], _ => none
  | (k', v) :: m, k => if k' = k then some v else find? m k

/-- The method `QHash::contains`. -/
def contains (m : QHash K V) (k : K) : Bool := (find? m k).isSome

/-- The method `QHash::value`: the stored value, or a default-constructed one. -/
def value (m : QHash K V) (k : K) (dflt : V) : V := (find? m k).getD dflt

/-- The method `QHash::insert` (also `m[k] = v`): an existing value for the key is replaced. -/
def insert : QHash K V → K → V → QHash K V
  | [], k, v => [(k, v)]
  | (k', v') :: m, k, v => if k' = k then (k, v) :: m else (k', v') :: insert m k v

/-- The method `QHash::keys`. -/
def keys (m : QHash K V) : List K := m.map Prod.fst

/-- Non-const `QHash::operator[]`: a missing key is first inserted with a
default-constructed value; the value and the resulting container are returned. -/
def index (m : QHash K V) (k : K) (dflt : V) : V × QHash K V :=
  match find? m k with
  | some v => (v, m)
  | none => (dflt, insert m k dflt)

end QHash

/-- Worker of `split`: `cur` is the segment being read, reversed. -/
def splitGo (sep : Char) : List Char → List Char → List (List Char)
  | [], cur => if cur = [] then [] else [cur.reverse]
  | c :: cs, cur =>
    if c = sep then
      if cur = [] then splitGo sep cs [] else cur.reverse :: splitGo sep cs []
    else splitGo sep cs (c :: cur)

/-- The call `QString::split(sep, QString::SkipEmptyParts)` for a one-character separator. -/
def split (s : QString) (sep : Char) : List QString :=
  (splitGo sep s.data []).map String.mk

/-- The enum `QMetaMethod::MethodType`. -/
inductive MethodType
  | Method
  | Signal
  | Slot
  | Constructor
  deriving DecidableEq, Repr

/-- The enum `QMetaMethod::Access`. -/
inductive Access
  | Private
  | Protected
  | Public
  deriving DecidableEq, Repr

/-- What the manager reads of a `QMetaMethod`: its name, kind, access and the
declared parameters, each a name (`parameterNames`) with a `QMetaType` id
(`parameterType`). -/
structure QMetaMethod where
  name : QString
  methodType : MethodType
  access : Access
  parameters : List (QString × Nat)
  deriving DecidableEq, Repr

/-- The method `QMetaMethod::parameterNames`. -/
def QMetaMethod.parameterNames (m : QMetaMethod) : List QString := m.parameters.map Prod.fst

/-- The method `QMetaMethod::parameterCount`. -/
def QMetaMethod.parameterCount (m : QMetaMethod) : Nat := m.parameters.length

/-- A default-constructed (invalid) `QMetaMethod`. -/
def QMetaMethod.invalid : QMetaMethod :=
  { name := "", methodType := MethodType.Method, access := Access.Private, parameters := [] }

/-- What the manager reads of a `ClassHandler`: its `objectName` and its meta
object, given by `methodOffset` and the table `methods` of all `methodCount`
methods (`metaObject()->method(i)` is `methods[i]`). -/
structure ClassHandler where
  objectName : QString
  methodOffset : Nat
  methods : List QMetaMethod
  deriving DecidableEq, Repr

/-- The method `QMetaObject::method`: an index out of range gives an invalid method. -/
def ClassHandler.method (h : ClassHandler) (methodIndex : Int) : QMetaMethod :=
  if methodIndex < 0 then QMetaMethod.invalid
  else (h.methods.get? methodIndex.toNat).getD QMetaMethod.invalid

/-- The struct `ClassHandlerManager::PluginDescriptor`; `handler` is a pointer,
`methods` a `QHash<uint, int>` from signature hash to method index. -/
structure PluginDescriptor where
  className : QString
  handler : Option ClassHandler
  methods : QHash Nat Int
  methodNames : List QString
  deriving DecidableEq, Repr

/-- The expression `new PluginDescriptor()`. -/
def PluginDescriptor.new : PluginDescriptor :=
  { className := "", handler := none, methods := [], methodNames := [] }

/-- A `QVariant` made from a string: the type it currently has and the string it was made from. -/
structure QVariant where
  typeId : Nat
  source : QString
  deriving DecidableEq, Repr

/-- The id `QMetaType::QString`. -/
def QMetaType.QString : Nat := 10

/-- The call `QVariant::fromValue` on a `QString`. -/
def QVariant.fromValue (s : QString) : QVariant := { typeId := QMetaType.QString, source := s }

/-- The call `QVariant::convert`. -/
def QVariant.convert (v : QVariant) (methodType : Nat) : QVariant := { v with typeId := methodType }

/-- One slot of `argumentTable`: default-constructed, `Q_ARG` of the request or
of the response, or the type name and data of a variant. -/
inductive QGenericArgument
  | empty
  | request
  | response
  | ofVariant (v : QVariant)
  deriving DecidableEq, Repr

/-- A call the manager makes on a collaborator. -/
inductive Call
  | init (handler : ClassHandler)
  | setContext (context : QString)
  | invoke (handler : ClassHandler) (methodIndex : Int) (argumentTable : List QGenericArgument)
  deriving DecidableEq, Repr

/-- Whether a logged call is a `QMetaMethod::invoke`. -/
def Call.isInvoke : Call → Bool
  | Call.invoke _ _ _ => true
  | _ => false

/-- Whether a logged call is a `ClassHandler::init`. -/
def Call.isInit : Call → Bool
  | Call.init _ => true
  | _ => false

/-- The state of a `ClassHandlerManager`: the context, the registry `handlers`
(whose values are pointers, `none` being `NULL`) and the log of outgoing calls,
oldest first. -/
structure ClassHandlerManager where
  m_context : QString
  handlers : QHash QString (Option PluginDescriptor)
  calls : List Call
  deriving DecidableEq, Repr

/-- The local `minimumPathComponents` of `handleRequest` (line 327). -/
def ClassHandlerManager.minimumPathComponents (self : ClassHandlerManager) : Nat :=
  if self.m_context ≠ "" then 3 else 2

/-- The operations invoked so far. -/
def ClassHandlerManager.invocations (self : ClassHandlerManager) : List Call :=
  self.calls.filter Call.isInvoke

/-- The `init` hooks invoked so far. -/
def ClassHandlerManager.initCalls (self : ClassHandlerManager) : List Call :=
  self.calls.filter Call.isInit

/-- The descriptor stored for a class identifier, when there is one. -/
def ClassHandlerManager.lookup (self : ClassHandlerManager) (className : QString) :
    Option PluginDescriptor :=
  (QHash.find? self.handlers className).join

/-- Addition of `uint` values. -/
def uintAdd (a b : Nat) : Nat := (a + b) % 2 ^ 32

/-- The `parameterHash` of `registerHandler` (lines 277-280): the hash of the
method name plus the hash of every declared parameter name. -/
def registerHash (qHash : QString → Nat) (method : QMetaMethod) : Nat :=
  method.parameterNames.foldl (fun parameterHash nameBytes => uintAdd parameterHash (qHash nameBytes))
    (qHash method.name % 2 ^ 32)

/-- The `parameterHash` of `selectMethod` (lines 301-306) for the keys in the
order `arguments.keys()` lists them. -/
def selectHash (qHash : QString → Nat) (methodName : QString) (keys : List QString) : Nat :=
  keys.foldl (fun parameterHash key => uintAdd parameterHash (qHash key))
    (uintAdd (uintAdd (qHash methodName % 2 ^ 32) (qHash "request")) (qHash "response"))

/-- The body of the loop of `registerHandler` (lines 263-287) for the method at
`entry.1`; the accumulator is `handlers` and `canDispathTo`. -/
def registerMethod (qHash : QString → Nat) (handler : ClassHandler)
    (acc : QHash QString (Option PluginDescriptor) × Bool) (entry : Nat × QMetaMethod) :
    Option (QHash QString (Option PluginDescriptor) × Bool) :=
  let methodIndex := entry.1
  let method := entry.2
  if method.methodType = MethodType.Slot ∧ method.access = Access.Public then
    let parameterNames := method.parameterNames
    match parameterNames.get? 0 with
    | none => none
    | some first =>
      if first = "request" then
        match parameterNames.get? 1 with
        | none => none
        | some second =>
          if second = "response" then
            let found := QHash.index acc.1 handler.objectName none
            let created :=
              match found.1 with
              | none => (PluginDescriptor.new,
                  QHash.insert found.2 handler.objectName (some PluginDescriptor.new))
              | some pluginDescriptor => (pluginDescriptor, found.2)
            let pluginDescriptor := created.1
            let updated : PluginDescriptor :=
              { className := handler.objectName
                handler := some handler
                methods := QHash.insert pluginDescriptor.methods (registerHash qHash method)
                  (methodIndex : Int)
                methodNames := pluginDescriptor.methodNames ++ [method.name] }
            some (QHash.insert created.2 handler.objectName (some updated), true)
          else some acc
      else some acc
  else some acc

/-- The loop of `registerHandler` over the methods still to scan, each with its index. -/
def registerLoop (qHash : QString → Nat) (handler : ClassHandler) :
    List (Nat × QMetaMethod) → QHash QString (Option PluginDescriptor) × Bool →
    Option (QHash QString (Option PluginDescriptor) × Bool)
  | [], acc => some acc
  | entry :: rest, acc =>
    match registerMethod qHash handler acc entry with
    | none => none
    | some acc' => registerLoop qHash handler rest acc'

/-- The methods `registerHandler` scans: those at the indices from `methodOffset`
up to `methodCount`, each with its index. -/
def ClassHandler.scanned (handler : ClassHandler) : List (Nat × QMetaMethod) :=
  handler.methods.enum.drop handler.methodOffset

/-- The method `ClassHandlerManager::registerHandler`. -/
def registerHandler (qHash : QString → Nat) (self : ClassHandlerManager) (handler : ClassHandler) :
    Option ClassHandlerManager :=
  if QHash.contains self.handlers handler.objectName then some self
  else
    match registerLoop qHash handler handler.scanned (self.handlers, false) with
    | none => none
    | some (handlers, canDispathTo) =>
      some { self with
        handlers := handlers
        calls := if canDispathTo then self.calls ++ [Call.init handler] else self.calls }

/-- The method `ClassHandlerManager::selectMethod`; `-1` when no method matches. -/
def selectMethod (qHash : QString → Nat) (self : ClassHandlerManager)
    (className methodName : QString) (arguments : QHash QString QString) : Option Int :=
  let parameterHash := selectHash qHash methodName (QHash.keys arguments)
  match QHash.find? self.handlers className with
  | some (some pluginDescriptor) =>
    if QHash.contains pluginDescriptor.methods parameterHash then
      some (QHash.value pluginDescriptor.methods parameterHash 0)
    else some (-1)
  | _ => none

/-- Assignment to element `i` of a fixed-size array. -/
def writeSlot {α : Type} (table : List α) (i : Nat) (v : α) : Option (List α) :=
  if i < table.length then some (table.set i v) else none

/-- The `while` loop of `processRequest` (lines 209-230) on `argumentTable` and
`variants`, started at `argumentIndex`; `fuel` bounds the number of iterations. -/
def fillArguments (canConvert : Nat → Bool) (method : QMetaMethod)
    (arguments : QHash QString QString) :
    Nat → Nat → List QGenericArgument × List (Option QVariant) →
    Option (List QGenericArgument × List (Option QVariant))
  | 0, argumentIndex, tables => if argumentIndex < method.parameterCount then none else some tables
  | fuel + 1, argumentIndex, tables =>
    if argumentIndex < method.parameterCount then
      match method.parameters.get? argumentIndex with
      | none => none
      | some (parameterName, methodType) =>
        let variant := QVariant.fromValue (QHash.value arguments parameterName "")
        match writeSlot tables.2 argumentIndex (some variant) with
        | none => none
        | some variants =>
          if canConvert methodType then
            match writeSlot variants argumentIndex (some (variant.convert methodType)),
              writeSlot tables.1 argumentIndex
                (QGenericArgument.ofVariant (variant.convert methodType)) with
            | some variants', some argumentTable =>
              fillArguments canConvert method arguments fuel (argumentIndex + 1)
                (argumentTable, variants')
            | _, _ => none
          else
            fillArguments canConvert method arguments fuel (argumentIndex + 1)
              (tables.1, variants)
    else some tables

/-- The arrays `argumentTable[10]` and `variants[10]` before the loop of `processRequest`. -/
def initialTables : List QGenericArgument × List (Option QVariant) :=
  (QGenericArgument.request :: QGenericArgument.response :: List.replicate 8 QGenericArgument.empty,
    List.replicate 10 none)

/-- The method `ClassHandlerManager::processRequest`. -/
def processRequest (qHash : QString → Nat) (canConvert : Nat → Bool) (self : ClassHandlerManager)
    (className methodName : QString) (arguments : QHash QString QString) :
    Option (Bool × ClassHandlerManager) :=
  let canHandle := true
  match selectMethod qHash self className methodName arguments with
  | none => none
  | some methodIndex =>
    if methodIndex > -1 then
      let found := QHash.index self.handlers className none
      match found.1 with
      | none => none
      | some descriptor =>
        match descriptor.handler with
        | none => none
        | some handler =>
          let method := handler.method methodIndex
          match fillArguments canConvert method arguments method.parameterCount 2 initialTables with
          | none => none
          | some tables =>
            if canHandle then
              some (true, { self with
                handlers := found.2
                calls := self.calls ++ [Call.invoke handler methodIndex tables.1] })
            else some (false, { self with handlers := found.2 })
    else some (false, self)

/-- The `while` loop of `handleRequest` (lines 349-352) that fills `arguments`,
started at `pathIndex`; `fuel` bounds the number of iterations. -/
def buildArguments (pathComponents : List QString) :
    Nat → Nat → QHash QString QString → Option (QHash QString QString)
  | 0, pathIndex, arguments => if pathIndex < pathComponents.length then none else some arguments
  | fuel + 1, pathIndex, arguments =>
    if pathIndex < pathComponents.length then
      match pathComponents.get? pathIndex, pathComponents.get? (pathIndex + 1) with
      | some key, some value =>
        buildArguments pathComponents fuel (pathIndex + 2) (QHash.insert arguments key value)
      | _, _ => none
    else some arguments

/-- The method `ClassHandlerManager::handleRequest` on the string
`request.url().toString()`: the result `wasHandled` and the state afterwards. -/
def handleRequest (qHash : QString → Nat) (canConvert : Nat → Bool) (self : ClassHandlerManager)
    (url : QString) : Option (Bool × ClassHandlerManager) :=
  let pathComponents := split url '/'
  let useContext : Bool := decide (self.m_context ≠ "")
  let minimumPathComponents := self.minimumPathComponents
  if pathComponents.length < minimumPathComponents then some (false, self)
  else if pathComponents.length > minimumPathComponents + 16 then some (false, self)
  else
    let forUs : Option Bool :=
      if useContext then (pathComponents.get? 0).map (fun first => decide (self.m_context = first))
      else some true
    match forUs with
    | none => none
    | some false => some (false, self)
    | some true =>
      let self1 := { self with calls := self.calls ++ [Call.setContext self.m_context] }
      let pathIndex := if useContext then 1 else 0
      match pathComponents.get? pathIndex, pathComponents.get? (pathIndex + 1) with
      | some className, some methodName =>
        let pathIndex := pathIndex + 2
        if ((pathComponents.length : Int) - (pathIndex : Int)) % 2 = 0 then
          if QHash.contains self1.handlers className then
            let found := QHash.index self1.handlers className none
            let self2 := { self1 with handlers := found.2 }
            match found.1 with
            | none => none
            | some descriptor =>
              if descriptor.methodNames.contains methodName then
                match buildArguments pathComponents pathComponents.length pathIndex [] with
                | none => none
                | some arguments => processRequest qHash canConvert self2 className methodName arguments
              else some (false, self2)
          else some (false, self1)
        else some (false, self1)
      | _, _ => none

/-- The segments a path must start with: the context, when one is configured. -/
def ClassHandlerManager.contextSegments (self : ClassHandlerManager) : List QString :=
  if self.m_context ≠ "" then [self.m_context] else []

/-- The state after `request.setContext(m_context)` (line 338). -/
def ClassHandlerManager.afterSetContext (self : ClassHandlerManager) : ClassHandlerManager :=
  { self with calls := self.calls ++ [Call.setContext self.m_context] }

/-- Key/value segments inserted pairwise, first pair first, into an argument
map; the list form of the loop `buildArguments` on an even number of segments. -/
def insertPairs : List QString → QHash QString QString → QHash QString QString
  | key :: value :: rest, arguments => insertPairs rest (QHash.insert arguments key value)
  | _, arguments => arguments

/-- The dispatchable shape tested by `registerHandler` (lines 265-267): a public
slot whose first two parameter names are `request` and `response`. -/
def QMetaMethod.isDispatchable (method : QMetaMethod) : Bool :=
  decide (method.methodType = MethodType.Slot) && decide (method.access = Access.Public) &&
    decide (method.parameterNames.get? 0 = some "request") &&
    decide (method.parameterNames.get? 1 = some "response")

/-- The public slots on which the test of line 267 reads `parameterNames` out of
range: those without parameters, and those whose only parameter is named `request`. -/
def QMetaMethod.readsOutOfRange (method : QMetaMethod) : Bool :=
  decide (method.methodType = MethodType.Slot) && decide (method.access = Access.Public) &&
    (decide (method.parameterNames = []) || decide (method.parameterNames = ["request"]))

/-- The descriptor after lines 274-282 have recorded the method `entry.2` of index `entry.1`. -/
def addMethod (qHash : QString → Nat) (handler : ClassHandler) (descriptor : PluginDescriptor)
    (entry : Nat × QMetaMethod) : PluginDescriptor :=
  { className := handler.objectName
    handler := some handler
    methods := QHash.insert descriptor.methods (registerHash qHash entry.2) (entry.1 : Int)
    methodNames := descriptor.methodNames ++ [entry.2.name] }

/-- The descriptor after the dispatchable methods among `entries` have been recorded, in order. -/
def scanDescriptor (qHash : QString → Nat) (handler : ClassHandler) :
    List (Nat × QMetaMethod) → PluginDescriptor → PluginDescriptor
  | [], descriptor => descriptor
  | entry :: rest, descriptor =>
    if entry.2.isDispatchable then
      scanDescriptor qHash handler rest (addMethod qHash handler descriptor entry)
    else scanDescriptor qHash handler rest descriptor

/-- A manager that was handed the statically linked and loaded handlers none yet:
the given context, an empty registry, no call made. -/
def emptyManager (context : QString) : ClassHandlerManager :=
  { m_context := context, handlers := [], calls := [] }

/-- The handler was registered under its `objectName` and the manager still
holds that entry: some call of `registerHandler` on a manager without the
identifier returned a manager with it, and `self` stores the same entry. -/
def Registered (qHash : QString → Nat) (self : ClassHandlerManager) (handler : ClassHandler) :
    Prop :=
  ∃ before after : ClassHandlerManager,
    QHash.contains before.handlers handler.objectName = false ∧
    registerHandler qHash before handler = some after ∧
    QHash.contains after.handlers handler.objectName = true ∧
    QHash.find? self.handlers handler.objectName = QHash.find? after.handlers handler.objectName

/-- A string that `split` returns as one segment: non-empty and without the separator. -/
def isSegment (s : QString) : Bool := decide (s ≠ "") && !s.data.contains '/'

/-- The path `/s₁/s₂/.../sₙ` of the given segments. -/
def pathOf : List QString → QString
  | [] => ""
  | s :: rest => "/" ++ s ++ pathOf rest

/-- The segments `k₁, v₁, k₂, v₂, ...` of a list of key/value pairs. -/
def segmentsOf : List (QString × QString) → List QString
  | [] => []
  | (key, value) :: rest => key :: value :: segmentsOf rest

/-- The UTF-16 code units of a character. -/
def utf16 (c : Char) : List Nat :=
  if c.toNat < 65536 then [c.toNat]
  else [55296 + (c.toNat - 65536) / 1024, 56320 + (c.toNat - 65536) % 1024]

/-- One implementation of `qHash(const QString &, uint seed = 0)`, that of Qt 5
without the CRC32 instruction: `h = 31 * h + unit` over the UTF-16 code units.
Only the concrete examples use it; the theorems hold for every `qHash`. -/
def qHash31 (s : QString) : Nat :=
  s.data.foldl (fun h c => (utf16 c).foldl (fun h unit => (31 * h + unit) % 2 ^ 32) h) 0

/-- A conversion predicate for the concrete examples: the `QMetaType` ids of
`bool`, `int`, `uint`, `qlonglong`, `qulonglong`, `double`, `QChar`, `QString`,
`QStringList` and `QByteArray`, to which Qt converts a string variant. The
theorems hold for every `canConvert`. -/
def canConvertFromString (methodType : Nat) : Bool :=
  decide (methodType ∈ [1, 2, 3, 4, 5, 6, 7, 10, 11, 12])

/-- The `QMetaType` ids under which the examples register `HttpServerRequest`
and `HttpServerResponse` (the first two user types). -/
def requestType : Nat := 1024

/-- See `requestType`. -/
def responseType : Nat := 1025

/-- The slot `deleteLater()` that every handler inherits from `QObject`; it lies
below `methodOffset` in the examples. -/
def deleteLater : QMetaMethod :=
  { name := "deleteLater", methodType := MethodType.Slot, access := Access.Public,
    parameters := [] }

/-- The public slot `get(request, response, id)` with a `QString` parameter `id`. -/
def getSlot : QMetaMethod :=
  { name := "get", methodType := MethodType.Slot, access := Access.Public,
    parameters := [("request", requestType), ("response", responseType),
      ("id", QMetaType.QString)] }

/-- The handler `Widgets` of the specification's scenarios: its only own method is `getSlot`. -/
def widgets : ClassHandler :=
  { objectName := "Widgets", methodOffset := 1, methods := [deleteLater, getSlot] }

/-- The handler `widgets` without an object name (`QObject::objectName` is empty until set). -/
def unnamedWidgets : ClassHandler :=
  { objectName := "", methodOffset := 1, methods := [deleteLater, getSlot] }

/-- A public slot `ping()` without parameters. -/
def pingSlot : QMetaMethod :=
  { name := "ping", methodType := MethodType.Slot, access := Access.Public, parameters := [] }

/-- The handler `widgets` with the further public slot `ping()`. -/
def widgetsWithPing : ClassHandler :=
  { objectName := "Widgets", methodOffset := 1, methods := [deleteLater, getSlot, pingSlot] }

/-- The public slot `id(request, response)`. -/
def idSlot : QMetaMethod :=
  { name := "id", methodType := MethodType.Slot, access := Access.Public,
    parameters := [("request", requestType), ("response", responseType)] }

/-- The handler `Widgets` with the two slots `id(request, response)` and
`get(request, response, id)`. -/
def widgetsWithId : ClassHandler :=
  { objectName := "Widgets", methodOffset := 1, methods := [deleteLater, idSlot, getSlot] }

/-- What lines 212-228 leave in the slot of `argumentTable` of the parameter
`parameter` (a name and a type id): the variant of the argument stored under
the parameter's name (an empty string when there is none), converted to the
parameter's type; the slot stays default-constructed when `canConvert` refuses
the type. -/
def marshal (canConvert : Nat → Bool) (arguments : QHash QString QString)
    (parameter : QString × Nat) : QGenericArgument :=
  if canConvert parameter.2 then
    QGenericArgument.ofVariant
      ((QVariant.fromValue (QHash.value arguments parameter.1 "")).convert parameter.2)
  else QGenericArgument.empty

/-- The descriptor `registerHandler` builds for `widgets`, for the hash `qHash31`. -/
def widgetsDescriptor : PluginDescriptor :=
  { className := "Widgets", handler := some widgets, methods := [(755475265, 1)],
    methodNames := ["get"] }

/-- The manager without a context after `registerHandler` on `widgets`, for the hash `qHash31`. -/
def registeredWidgets : ClassHandlerManager :=
  { m_context := "", handlers := [("Widgets", some widgetsDescriptor)],
    calls := [Call.init widgets] }

/-- The manager `registeredWidgets` configured with the context `api`. -/
def apiWidgets : ClassHandlerManager := { registeredWidgets with m_context := "api" }

/-- The public slot `move(request, response, x, y)` with two `int` parameters. -/
def moveSlot : QMetaMethod :=
  { name := "move", methodType := MethodType.Slot, access := Access.Public,
    parameters := [("request", requestType), ("response", responseType), ("x", 2), ("y", 2)] }

/-- A handler `Points` whose only own method is `moveSlot`. -/
def points : ClassHandler :=
  { objectName := "Points", methodOffset := 1, methods := [deleteLater, moveSlot] }

/-- The descriptor `registerHandler` builds for `points`, for the hash `qHash31`. -/
def pointsDescriptor : PluginDescriptor :=
  scanDescriptor qHash31 points points.scanned PluginDescriptor.new

/-- A manager with the context `api` in which `points` is registered. -/
def apiPoints : ClassHandlerManager :=
  { m_context := "api", handlers := [("Points", some pointsDescriptor)],
    calls := [Call.init points] }

/-- The manager without a context after `registerHandler` on `unnamedWidgets`,
for the hash `qHash31`. -/
def registeredUnnamed : ClassHandlerManager :=
  { m_context := ""
    handlers := [("", some (scanDescriptor qHash31 unnamedWidgets unnamedWidgets.scanned
      PluginDescriptor.new))]
    calls := [Call.init unnamedWidgets] }

/-- The manager without a context after `registerHandler` on `widgetsWithId`,
for the hash `qHash31`. -/
def registeredWithId : ClassHandlerManager :=
  { m_context := ""
    handlers := [("Widgets", some (scanDescriptor qHash31 widgetsWithId widgetsWithId.scanned
      PluginDescriptor.new))]
    calls := [Call.init widgetsWithId] }

/-! ### The plugin search locations -/

/-- The platform selected by `Q_OS_WIN` and `Q_OS_MAC` (lines 62-69). -/
inductive Platform
  | windows
  | mac
  | other
  deriving DecidableEq, Repr

/-- What the constructor reads of the process and the file system to seed
`pluginLocations`: `QDir::homePath()`, `QCoreApplication::libraryPaths()`,
`QDir::separator()`, `QDir(path).exists()` and `QDir(path).absolutePath()`,
`QCoreApplication::applicationDirPath()`, `QFileInfo(path).isDir()` and
`QFileInfo(path).absolutePath()`. -/
structure Environment where
  platform : Platform
  homePath : QString
  libraryPaths : List QString
  separator : QString
  dirExists : QString → Bool
  dirAbsolutePath : QString → QString
  applicationDirPath : QString
  isDir : QString → Bool
  fileAbsolutePath : QString → QString

/-- The method `ClassHandlerManager::addPluginLocation` on the static list `pluginLocations`. -/
def addPluginLocation (pluginLocations : List QString) (location : QString) : List QString :=
  if ¬ pluginLocations.contains location then pluginLocations ++ [location]
  else pluginLocations

/-- A sequence of `addPluginLocation` calls. -/
def addPluginLocations (pluginLocations : List QString) (locations : List QString) :
    List QString :=
  locations.foldl addPluginLocation pluginLocations

/-- The per-user locations appended by lines 62-69. -/
def userLocations (env : Environment) (pluginLocations : List QString) : List QString :=
  match env.platform with
  | Platform.windows => pluginLocations
  | Platform.mac =>
    (pluginLocations ++ [env.homePath ++ "/Library/Application Support/Tufao"])
      ++ ["/Library/Application Support/Tufao"]
  | Platform.other => pluginLocations ++ [env.homePath ++ "/.tufao"]

/-- The loop of lines 72-77 over `QCoreApplication::libraryPaths()`. -/
def libraryLocations (env : Environment) (pluginLocations : List QString) : List QString :=
  env.libraryPaths.foldl
    (fun locations libraryPath =>
      let testDir := libraryPath ++ env.separator ++ "Tufao"
      if env.dirExists testDir then locations ++ [env.dirAbsolutePath testDir] else locations)
    pluginLocations

/-- The install location appended by lines 80-83. -/
def installLocation (env : Environment) (pluginLocations : List QString) : List QString :=
  if env.isDir env.applicationDirPath then
    pluginLocations ++ [env.fileAbsolutePath env.applicationDirPath]
  else pluginLocations

/-- The list `pluginLocations` after lines 58-86 of the constructor; the rest of
the constructor only reads the list. -/
def constructorLocations (env : Environment) (pluginLocations : List QString) : List QString :=
  if pluginLocations.isEmpty then
    installLocation env (libraryLocations env (userLocations env pluginLocations))
  else pluginLocations

/-- An environment for the examples: Linux, home `/home/u`, one library path
`/usr/lib/qt/plugins` with a `Tufao` directory, the application in `/opt/app/bin`. -/
def linuxEnvironment : Environment :=
  { platform := Platform.other
    homePath := "/home/u"
    libraryPaths := ["/usr/lib/qt/plugins"]
    separator := "/"
    dirExists := fun path => path == "/usr/lib/qt/plugins/Tufao"
    dirAbsolutePath := fun path => path
    applicationDirPath := "/opt/app/bin"
    isDir := fun path => path == "/opt/app/bin"
    fileAbsolutePath := fun path => if path == "/opt/app/bin" then "/opt/app" else path }

/-! ### The argument map, in the words of the specification -/

/-- The specification's argument map, read off the segments that follow the
method: the value after the last occurrence of `key` at an even offset, when
there is one. -/
def specLastValue : List QString → QString → Option QString
  | k :: v :: rest, key =>
    match specLastValue rest key with
    | some later => some later
    | none => if k = key then some v else none
  | _, _ => none

/-- The keys of the specification's argument map: the segments at even offsets. -/
def specKeys : List QString → List QString
  | k :: _ :: rest => k :: specKeys rest
  | _ => []

/-! ### Further example handlers -/

/-- A handler `Pinger` whose only own method is the public slot `ping()`. -/
def pingOnly : ClassHandler :=
  { objectName := "Pinger", methodOffset := 1, methods := [deleteLater, pingSlot] }

/-- A public slot `reset(request)` with the single parameter `request`. -/
def resetSlot : QMetaMethod :=
  { name := "reset", methodType := MethodType.Slot, access := Access.Public,
    parameters := [("request", requestType)] }

/-- The handler `widgets` with the further public slot `reset(request)`. -/
def widgetsWithReset : ClassHandler :=
  { objectName := "Widgets", methodOffset := 1, methods := [deleteLater, getSlot, resetSlot] }

/-- The public slot `id(request, response, get)`: the name and the parameter of
`getSlot` exchanged. -/
def mirrorSlot : QMetaMethod :=
  { name := "id", methodType := MethodType.Slot, access := Access.Public,
    parameters := [("request", requestType), ("response", responseType),
      ("get", QMetaType.QString)] }

/-- A handler `Widgets` with the slots `get(request, response, id)` and
`id(request, response, get)`. -/
def mirrored : ClassHandler :=
  { objectName := "Widgets", methodOffset := 1, methods := [deleteLater, getSlot, mirrorSlot] }

/-- A public slot `get(request, response, id, …)` with eight further `int`
parameters that are declared without a name: eleven parameters in all. -/
def wideSlot : QMetaMethod :=
  { name := "get", methodType := MethodType.Slot, access := Access.Public,
    parameters := [("request", requestType), ("response", responseType),
      ("id", QMetaType.QString), ("", 2), ("", 2), ("", 2), ("", 2), ("", 2), ("", 2),
      ("", 2), ("", 2)] }

/-- A handler `Widgets` whose only own method is `wideSlot`. -/
def wideWidgets : ClassHandler :=
  { objectName := "Widgets", methodOffset := 1, methods := [deleteLater, wideSlot] }

/-- The manager without a context after `registerHandler` on `wideWidgets`,
for the hash `qHash31`. -/
def registeredWide : ClassHandlerManager :=
  { m_context := ""
    handlers := [("Widgets", some (scanDescriptor qHash31 wideWidgets wideWidgets.scanned
      PluginDescriptor.new))]
    calls := [Call.init wideWidgets] }

/-! ## Signature hashes -/

theorem uintAdd_mod (a b : Nat) : uintAdd a b % 2 ^ 32 = uintAdd a b := by
  unfold uintAdd; exact Nat.mod_mod _ _

/-- A commutative accumulation of hashes is the sum of the hashes, reduced once. -/
theorem hashFold_eq (qHash : QString → Nat) (keys : List QString) (start : Nat) :
    keys.foldl (fun parameterHash key => uintAdd parameterHash (qHash key)) (start % 2 ^ 32)
      = (start + (keys.map qHash).sum) % 2 ^ 32 := by
  induction keys generalizing start with
  | nil => simp
  | cons k ks ih =>
    simp only [List.foldl_cons, List.map_cons, List.sum_cons]
    have h : uintAdd (start % 2 ^ 32) (qHash k) = (start + qHash k) % 2 ^ 32 := by
      unfold uintAdd; omega
    rw [h, ih, Nat.add_assoc]

theorem selectHash_eq (qHash : QString → Nat) (methodName : QString) (keys : List QString) :
    selectHash qHash methodName keys
      = (qHash methodName + qHash "request" + qHash "response" + (keys.map qHash).sum) % 2 ^ 32 := by
  unfold selectHash
  have h : uintAdd (uintAdd (qHash methodName % 2 ^ 32) (qHash "request")) (qHash "response")
      = (qHash methodName + qHash "request" + qHash "response") % 2 ^ 32 := by
    unfold uintAdd; omega
  rw [h, hashFold_eq]

theorem registerHash_eq (qHash : QString → Nat) (method : QMetaMethod) :
    registerHash qHash method
      = (qHash method.name + (method.parameterNames.map qHash).sum) % 2 ^ 32 := by
  unfold registerHash
  rw [hashFold_eq]

/-! ## Routing: the checks made before the registry is consulted -/

/-- A path that is too short or too long is unhandled and changes nothing. -/
theorem handleRequest_of_length (qHash : QString → Nat) (canConvert : Nat → Bool)
    (self : ClassHandlerManager) (url : QString)
    (hlen : (split url '/').length < self.minimumPathComponents ∨
      self.minimumPathComponents + 16 < (split url '/').length) :
    handleRequest qHash canConvert self url = some (false, self) := by
  unfold handleRequest
  rcases hlen with h | h
  · simp [h]
  · have h' : ¬ (split url '/').length < self.minimumPathComponents := by omega
    simp [h, h']

/-- A path that does not start with the configured context is unhandled and changes nothing. -/
theorem handleRequest_of_foreign_context (qHash : QString → Nat) (canConvert : Nat → Bool)
    (self : ClassHandlerManager) (url : QString)
    (hctx : self.m_context ≠ "")
    (hfirst : (split url '/').head? ≠ some self.m_context) :
    handleRequest qHash canConvert self url = some (false, self) := by
  unfold handleRequest
  simp only [hctx, ne_eq, not_false_eq_true, decide_True, if_true]
  split
  · rfl
  · split
    · rfl
    · rename_i h1 h2
      cases hs : split url '/' with
      | nil => simp [hs, ClassHandlerManager.minimumPathComponents, hctx] at h1
      | cons first rest =>
        have hne : self.m_context ≠ first := by
          intro h; apply hfirst; simp [hs, h]
        simp [hne]

/-! ## Routing: normal form of `handleRequest` on a path that passes the checks -/

theorem buildArguments_append (pre : List QString) :
    ∀ (fuel : Nat) (done rest : List QString) (arguments : QHash QString QString),
      rest.length % 2 = 0 → rest.length ≤ 2 * fuel →
      buildArguments (pre ++ done ++ rest) fuel (pre ++ done).length arguments
        = some (insertPairs rest arguments) := by
  intro fuel
  induction fuel with
  | zero =>
    intro done rest arguments _ hle
    have : rest = [] := List.length_eq_zero.mp (by omega)
    subst this
    simp [buildArguments, insertPairs]
  | succ fuel ih =>
    intro done rest arguments heven hle
    match rest, heven, hle with
    | [], _, _ => simp [buildArguments, insertPairs]
    | [k], heven, _ => simp at heven
    | k :: v :: rest', heven, hle =>
      have hlt : (pre ++ done).length < (pre ++ done ++ k :: v :: rest').length := by
        simp
      have hk : (pre ++ done ++ k :: v :: rest').get? (pre ++ done).length = some k := by
        rw [List.get?_eq_getElem?, List.getElem?_append_right (Nat.le_refl _)]
        simp
      have hv : (pre ++ done ++ k :: v :: rest').get? ((pre ++ done).length + 1) = some v := by
        rw [List.get?_eq_getElem?, List.getElem?_append_right (Nat.le_add_right _ _)]
        simp
      have hstep := ih (done ++ [k, v]) rest' (QHash.insert arguments k v)
        (by simp at heven ⊢; omega) (by simp at hle ⊢; omega)
      have e1 : pre ++ (done ++ [k, v]) ++ rest' = pre ++ done ++ k :: v :: rest' := by simp
      have e2 : (pre ++ (done ++ [k, v])).length = (pre ++ done).length + 2 := by
        simp only [List.length_append, List.length_cons, List.length_nil]; omega
      rw [e1, e2] at hstep
      simp only [buildArguments, hlt, if_true, hk, hv, insertPairs]
      exact hstep

theorem QHash.index_of_find {K V : Type} [DecidableEq K] (m : QHash K V) (k : K) (dflt v : V)
    (h : QHash.find? m k = some v) : QHash.index m k dflt = (v, m) := by
  simp [QHash.index, h]

/-- Normal form of `handleRequest` on a path made of the context segment (when a
context is configured), a class, a method and at most sixteen further segments. -/
theorem handleRequest_accepted (qHash : QString → Nat) (canConvert : Nat → Bool)
    (self : ClassHandlerManager) (url className methodName : QString) (rest : List QString)
    (hs : split url '/' = self.contextSegments ++ className :: methodName :: rest)
    (hlen : rest.length ≤ 16) :
    handleRequest qHash canConvert self url =
      if rest.length % 2 = 0 then
        match QHash.find? self.handlers className with
        | none => some (false, self.afterSetContext)
        | some none => none
        | some (some descriptor) =>
          if descriptor.methodNames.contains methodName then
            processRequest qHash canConvert self.afterSetContext className methodName
              (insertPairs rest [])
          else some (false, self.afterSetContext)
      else some (false, self.afterSetContext) := by
  unfold handleRequest
  have hbuild : ∀ pre : List QString, rest.length % 2 = 0 →
      buildArguments (pre ++ rest) (pre ++ rest).length pre.length []
        = some (insertPairs rest []) := by
    intro pre heven
    have := buildArguments_append [] (pre ++ rest).length pre rest [] heven
      (by simp only [List.length_append]; omega)
    simpa using this
  have hfind : ∀ v, QHash.find? self.handlers className = some v →
      QHash.index self.handlers className none = (v, self.handlers) :=
    fun v h => QHash.index_of_find _ _ _ _ h
  by_cases hctx : self.m_context = ""
  · have hcs : self.contextSegments = [] := by simp [ClassHandlerManager.contextSegments, hctx]
    rw [hcs, List.nil_append] at hs
    have hmin : self.minimumPathComponents = 2 := by
      simp [ClassHandlerManager.minimumPathComponents, hctx]
    have hdec : decide (self.m_context ≠ "") = false := by simp [hctx]
    have hb := hbuild [className, methodName]
    have hp : ((((rest.length + 1 + 1 : Nat)) : Int) - (((2 : Nat)) : Int)) % 2 = 0
        ↔ rest.length % 2 = 0 := by omega
    have h1 : ¬ rest.length + 1 + 1 < 2 := by omega
    have h2 : ¬ rest.length + 1 + 1 > 2 + 16 := by omega
    simp only [hs, hmin, hdec, List.length_cons, Bool.false_eq_true, ↓reduceIte, Nat.zero_add,
      hp, h1, h2, List.cons_append, List.nil_append, List.length_nil] at hb ⊢
    by_cases heven : rest.length % 2 = 0
    · cases hf : QHash.find? self.handlers className with
      | none => simp [heven, QHash.contains, hf, ClassHandlerManager.afterSetContext]
      | some v =>
        cases v with
        | none => simp [heven, QHash.contains, hf, hfind _ hf]
        | some d =>
          simp [heven, QHash.contains, hf, hfind _ hf, hb heven,
            ClassHandlerManager.afterSetContext]
    · simp [heven, ClassHandlerManager.afterSetContext]
  · have hcs : self.contextSegments = [self.m_context] := by
      simp [ClassHandlerManager.contextSegments, hctx]
    rw [hcs] at hs
    have hmin : self.minimumPathComponents = 3 := by
      simp [ClassHandlerManager.minimumPathComponents, hctx]
    have hdec : decide (self.m_context ≠ "") = true := by simp [hctx]
    have hb := hbuild [self.m_context, className, methodName]
    have hp : ((((rest.length + 1 + 1 + 1 : Nat)) : Int) - (((1 + 2 : Nat)) : Int)) % 2 = 0
        ↔ rest.length % 2 = 0 := by omega
    have h1 : ¬ rest.length + 1 + 1 + 1 < 3 := by omega
    have h2 : ¬ rest.length + 1 + 1 + 1 > 3 + 16 := by omega
    simp only [hs, hmin, hdec, List.length_cons, ↓reduceIte, List.singleton_append,
      hp, h1, h2, List.cons_append, List.nil_append, List.length_nil, List.get?_cons_zero,
      Option.map_some', decide_True] at hb ⊢
    by_cases heven : rest.length % 2 = 0
    · cases hf : QHash.find? self.handlers className with
      | none => simp [heven, QHash.contains, hf, ClassHandlerManager.afterSetContext]
      | some v =>
        cases v with
        | none => simp [heven, QHash.contains, hf, hfind _ hf]
        | some d =>
          simp [heven, QHash.contains, hf, hfind _ hf, hb heven,
            ClassHandlerManager.afterSetContext]
    · simp [heven, ClassHandlerManager.afterSetContext]


theorem invocations_afterSetContext (self : ClassHandlerManager) :
    self.afterSetContext.invocations = self.invocations := by
  simp [ClassHandlerManager.afterSetContext, ClassHandlerManager.invocations, Call.isInvoke]

theorem handlers_afterSetContext (self : ClassHandlerManager) :
    self.afterSetContext.handlers = self.handlers := rfl

theorem context_afterSetContext (self : ClassHandlerManager) :
    self.afterSetContext.m_context = self.m_context := rfl

/-- A path that is long enough and starts with the context, when one is
configured, consists of the context segments, a class, a method and the rest. -/
theorem split_decompose (self : ClassHandlerManager) (url : QString)
    (hmin : self.minimumPathComponents ≤ (split url '/').length)
    (hfirst : self.m_context ≠ "" → (split url '/').head? = some self.m_context) :
    ∃ className methodName rest,
      split url '/' = self.contextSegments ++ className :: methodName :: rest ∧
      rest.length + self.minimumPathComponents = (split url '/').length := by
  by_cases hctx : self.m_context = ""
  · have hcs : self.contextSegments = [] := by simp [ClassHandlerManager.contextSegments, hctx]
    have hm : self.minimumPathComponents = 2 := by
      simp [ClassHandlerManager.minimumPathComponents, hctx]
    rw [hm] at hmin ⊢
    rw [hcs]
    match hs : split url '/', hmin with
    | a :: b :: rest, _ => exact ⟨a, b, rest, by simp, by simp⟩
  · have hcs : self.contextSegments = [self.m_context] := by
      simp [ClassHandlerManager.contextSegments, hctx]
    have hm : self.minimumPathComponents = 3 := by
      simp [ClassHandlerManager.minimumPathComponents, hctx]
    have hf := hfirst hctx
    rw [hm] at hmin ⊢
    rw [hcs]
    match hs : split url '/', hmin, hf with
    | c :: a :: b :: rest, _, hf =>
      simp at hf
      subst hf
      exact ⟨a, b, rest, by simp, by simp⟩

/-- An odd number of segments after the context, class and method: the request is unhandled. -/
theorem handleRequest_of_odd (qHash : QString → Nat) (canConvert : Nat → Bool)
    (self : ClassHandlerManager) (url : QString)
    (hodd : ((split url '/').length - self.minimumPathComponents) % 2 = 1) :
    handleRequest qHash canConvert self url = some (false, self) ∨
      handleRequest qHash canConvert self url = some (false, self.afterSetContext) := by
  by_cases hlong : self.minimumPathComponents + 16 < (split url '/').length
  · exact Or.inl (handleRequest_of_length qHash canConvert self url (Or.inr hlong))
  · by_cases hfirst : self.m_context ≠ "" → (split url '/').head? = some self.m_context
    · obtain ⟨className, methodName, rest, hs, hl⟩ :=
        split_decompose self url (by omega) hfirst
      have hr : ¬ rest.length % 2 = 0 := by omega
      right
      rw [handleRequest_accepted qHash canConvert self url className methodName rest hs (by omega)]
      simp [hr]
    · push_neg at hfirst
      exact Or.inl (handleRequest_of_foreign_context qHash canConvert self url hfirst.1 hfirst.2)

/-- An unknown class, or a method name the class does not list: the request is unhandled. -/
theorem handleRequest_of_unknown (qHash : QString → Nat) (canConvert : Nat → Bool)
    (self : ClassHandlerManager) (url className methodName : QString) (rest : List QString)
    (hs : split url '/' = self.contextSegments ++ className :: methodName :: rest)
    (hlen : rest.length ≤ 16)
    (hmiss : QHash.contains self.handlers className = false ∨
      ∃ descriptor, QHash.find? self.handlers className = some (some descriptor) ∧
        methodName ∉ descriptor.methodNames) :
    handleRequest qHash canConvert self url = some (false, self.afterSetContext) := by
  rw [handleRequest_accepted qHash canConvert self url className methodName rest hs hlen]
  split
  · rcases hmiss with h | ⟨d, hd, hm⟩
    · have : QHash.find? self.handlers className = none := by
        simpa [QHash.contains] using h
      simp [this]
    · simp [hd, hm]
  · rfl

/-! ## The containers -/

theorem QHash.find_insert_self {K V : Type} [DecidableEq K] (m : QHash K V) (k : K) (v : V) :
    QHash.find? (QHash.insert m k v) k = some v := by
  induction m with
  | nil => simp [QHash.insert, QHash.find?]
  | cons p m ih =>
    obtain ⟨k', v'⟩ := p
    by_cases h : k' = k
    · simp [QHash.insert, QHash.find?, h]
    · simp [QHash.insert, QHash.find?, h, ih]

theorem QHash.find_insert_ne {K V : Type} [DecidableEq K] (m : QHash K V) (k k₀ : K) (v : V)
    (hne : k ≠ k₀) : QHash.find? (QHash.insert m k v) k₀ = QHash.find? m k₀ := by
  induction m with
  | nil => simp [QHash.insert, QHash.find?, hne]
  | cons p m ih =>
    obtain ⟨k', v'⟩ := p
    by_cases h : k' = k
    · subst h
      simp [QHash.insert, QHash.find?, hne]
    · by_cases h0 : k' = k₀
      · subst h0
        simp [QHash.insert, QHash.find?, h]
      · simp [QHash.insert, QHash.find?, h, h0, ih]

theorem QHash.insert_insert {K V : Type} [DecidableEq K] (m : QHash K V) (k : K) (a b : V) :
    QHash.insert (QHash.insert m k a) k b = QHash.insert m k b := by
  induction m with
  | nil => simp [QHash.insert]
  | cons p m ih =>
    obtain ⟨k', v'⟩ := p
    by_cases h : k' = k
    · simp [QHash.insert, h]
    · simp [QHash.insert, h, ih]

theorem QHash.contains_insert_self {K V : Type} [DecidableEq K] (m : QHash K V) (k : K) (v : V) :
    QHash.contains (QHash.insert m k v) k = true := by
  simp [QHash.contains, QHash.find_insert_self]

/-! ## Registration -/

theorem registerMethod_dispatchable (qHash : QString → Nat) (handler : ClassHandler)
    (acc : QHash QString (Option PluginDescriptor) × Bool) (entry : Nat × QMetaMethod)
    (hd : entry.2.isDispatchable = true) :
    registerMethod qHash handler acc entry =
      some (QHash.insert acc.1 handler.objectName
        (some (addMethod qHash handler
          ((QHash.find? acc.1 handler.objectName).join.getD PluginDescriptor.new) entry)), true) := by
  simp only [QMetaMethod.isDispatchable, Bool.and_eq_true, decide_eq_true_eq] at hd
  obtain ⟨⟨⟨h1, h2⟩, h3⟩, h4⟩ := hd
  unfold registerMethod
  simp only [h1, h2, h3, h4, and_self, if_true, QHash.index]
  cases hf : QHash.find? acc.1 handler.objectName with
  | none => simp [QHash.insert_insert, addMethod]
  | some v =>
    cases v with
    | none => simp [QHash.insert_insert, addMethod]
    | some d => simp [addMethod]

theorem registerMethod_other (qHash : QString → Nat) (handler : ClassHandler)
    (acc : QHash QString (Option PluginDescriptor) × Bool) (entry : Nat × QMetaMethod)
    (hd : entry.2.isDispatchable = false) :
    registerMethod qHash handler acc entry =
      if entry.2.readsOutOfRange then none else some acc := by
  unfold registerMethod QMetaMethod.readsOutOfRange
  simp only [QMetaMethod.isDispatchable] at hd
  by_cases h1 : entry.2.methodType = MethodType.Slot ∧ entry.2.access = Access.Public
  · obtain ⟨h1a, h1b⟩ := h1
    simp only [h1a, h1b, and_self, if_true, decide_True, Bool.true_and] at hd ⊢
    match hp : entry.2.parameterNames with
    | [] => simp
    | [a] =>
      by_cases ha : a = "request"
      · simp [ha]
      · simp [ha]
    | a :: b :: rest =>
      simp [hp] at hd
      by_cases ha : a = "request"
      · simp [ha, hd ha]
      · simp [ha]
  · have : (decide (entry.2.methodType = MethodType.Slot) &&
        decide (entry.2.access = Access.Public)) = false := by
      simpa using h1
    simp [h1, this]


theorem scanDescriptor_of_none (qHash : QString → Nat) (handler : ClassHandler)
    (entries : List (Nat × QMetaMethod)) (descriptor : PluginDescriptor)
    (hnone : entries.any (fun entry => entry.2.isDispatchable) = false) :
    scanDescriptor qHash handler entries descriptor = descriptor := by
  induction entries generalizing descriptor with
  | nil => rfl
  | cons entry rest ih =>
    simp only [List.any_cons, Bool.or_eq_false_iff] at hnone
    simp [scanDescriptor, hnone.1, ih descriptor hnone.2]

/-- What the loop of `registerHandler` returns when it returns: the accumulator
it started from when no scanned method is dispatchable, and otherwise the
registry with the handler's descriptor extended by the dispatchable methods. -/
theorem registerLoop_result (qHash : QString → Nat) (handler : ClassHandler)
    (entries : List (Nat × QMetaMethod)) :
    ∀ (acc acc' : QHash QString (Option PluginDescriptor) × Bool),
      registerLoop qHash handler entries acc = some acc' →
      acc' =
        if entries.any (fun entry => entry.2.isDispatchable) then
          (QHash.insert acc.1 handler.objectName
            (some (scanDescriptor qHash handler entries
              ((QHash.find? acc.1 handler.objectName).join.getD PluginDescriptor.new))), true)
        else acc := by
  induction entries with
  | nil =>
    intro acc acc' h
    simp only [registerLoop, Option.some.injEq] at h
    simp [h]
  | cons entry rest ih =>
    intro acc acc' h
    by_cases hd : entry.2.isDispatchable = true
    · simp only [registerLoop, registerMethod_dispatchable qHash handler acc entry hd] at h
      have := ih _ _ h
      rw [this]
      simp only [List.any_cons, hd, Bool.true_or, if_true, QHash.find_insert_self,
        Option.join, Option.getD_some, QHash.insert_insert, scanDescriptor]
      by_cases hr : rest.any (fun entry => entry.2.isDispatchable) = true
      · simp [hr]
      · have hr' : rest.any (fun entry => entry.2.isDispatchable) = false := by simpa using hr
        simp only [hr', Bool.false_eq_true, if_false]
        rw [scanDescriptor_of_none qHash handler rest _ hr']
    · have hd' : entry.2.isDispatchable = false := by simpa using hd
      simp only [registerLoop, registerMethod_other qHash handler acc entry hd'] at h
      by_cases ho : entry.2.readsOutOfRange = true
      · simp [ho] at h
      · simp only [ho, if_false] at h
        have := ih _ _ h
        rw [this]
        simp only [List.any_cons, hd', Bool.false_or, scanDescriptor, Bool.false_eq_true, if_false]

/-- The loop of `registerHandler` returns when no scanned public slot is read out of range. -/
theorem registerLoop_returns (qHash : QString → Nat) (handler : ClassHandler)
    (entries : List (Nat × QMetaMethod))
    (hsafe : ∀ entry ∈ entries, entry.2.readsOutOfRange = false) :
    ∀ acc, ∃ acc', registerLoop qHash handler entries acc = some acc' := by
  induction entries with
  | nil => intro acc; exact ⟨acc, rfl⟩
  | cons entry rest ih =>
    intro acc
    have hrest : ∀ e ∈ rest, e.2.readsOutOfRange = false :=
      fun e he => hsafe e (List.mem_cons_of_mem _ he)
    by_cases hd : entry.2.isDispatchable = true
    · simp only [registerLoop, registerMethod_dispatchable qHash handler acc entry hd]
      exact ih hrest _
    · have hd' : entry.2.isDispatchable = false := by simpa using hd
      simp only [registerLoop, registerMethod_other qHash handler acc entry hd',
        hsafe entry (List.mem_cons_self _ _), Bool.false_eq_true, if_false]
      exact ih hrest _

/-- The loop of `registerHandler` fails once a scanned public slot is read out of range. -/
theorem registerLoop_fails (qHash : QString → Nat) (handler : ClassHandler)
    (entries : List (Nat × QMetaMethod))
    (hbad : ∃ entry ∈ entries, entry.2.readsOutOfRange = true) :
    ∀ acc, registerLoop qHash handler entries acc = none := by
  induction entries with
  | nil => obtain ⟨e, he, _⟩ := hbad; simp at he
  | cons entry rest ih =>
    intro acc
    by_cases ho : entry.2.readsOutOfRange = true
    · have hd' : entry.2.isDispatchable = false := by
        simp only [QMetaMethod.readsOutOfRange, Bool.and_eq_true, Bool.or_eq_true,
          decide_eq_true_eq] at ho
        simp only [QMetaMethod.isDispatchable]
        rcases ho.2 with h | h <;> simp [h]
      simp [registerLoop, registerMethod_other qHash handler acc entry hd', ho]
    · obtain ⟨e, he, hb⟩ := hbad
      have hrest : ∃ e ∈ rest, e.2.readsOutOfRange = true := by
        rcases List.mem_cons.mp he with h | h
        · subst h; exact absurd hb ho
        · exact ⟨e, h, hb⟩
      simp only [registerLoop]
      cases hm : registerMethod qHash handler acc entry with
      | none => rfl
      | some acc1 => exact ih hrest acc1


theorem registerHandler_of_registered (qHash : QString → Nat) (self : ClassHandlerManager)
    (handler : ClassHandler) (h : QHash.contains self.handlers handler.objectName = true) :
    registerHandler qHash self handler = some self := by
  simp [registerHandler, h]

/-- What `registerHandler` returns, when it returns, for an identifier not yet
in the registry. -/
theorem registerHandler_fresh (qHash : QString → Nat) (self after : ClassHandlerManager)
    (handler : ClassHandler) (hnew : QHash.contains self.handlers handler.objectName = false)
    (hreg : registerHandler qHash self handler = some after) :
    after =
      if handler.scanned.any (fun entry => entry.2.isDispatchable) then
        { self with
          handlers := QHash.insert self.handlers handler.objectName
            (some (scanDescriptor qHash handler handler.scanned PluginDescriptor.new))
          calls := self.calls ++ [Call.init handler] }
      else self := by
  have hfind : QHash.find? self.handlers handler.objectName = none := by
    simpa [QHash.contains] using hnew
  simp only [registerHandler, hnew, Bool.false_eq_true, if_false] at hreg
  cases hl : registerLoop qHash handler handler.scanned (self.handlers, false) with
  | none => simp [hl] at hreg
  | some acc' =>
    have hres := registerLoop_result qHash handler handler.scanned _ _ hl
    simp only [hl, Option.some.injEq] at hreg
    rw [← hreg]
    by_cases hany : handler.scanned.any (fun entry => entry.2.isDispatchable) = true
    · simp only [hany, if_true, hfind] at hres ⊢
      rw [hres]
      simp
    · simp only [hany, if_false] at hres ⊢
      rw [hres]
      simp

theorem registerHandler_returns (qHash : QString → Nat) (self : ClassHandlerManager)
    (handler : ClassHandler)
    (hsafe : ∀ entry ∈ handler.scanned, entry.2.readsOutOfRange = false) :
    ∃ after, registerHandler qHash self handler = some after := by
  unfold registerHandler
  split
  · exact ⟨self, rfl⟩
  · obtain ⟨acc', hacc⟩ := registerLoop_returns qHash handler handler.scanned hsafe
      (self.handlers, false)
    rw [hacc]
    exact ⟨_, rfl⟩

theorem registerHandler_fails (qHash : QString → Nat) (self : ClassHandlerManager)
    (handler : ClassHandler) (hnew : QHash.contains self.handlers handler.objectName = false)
    (hbad : ∃ entry ∈ handler.scanned, entry.2.readsOutOfRange = true) :
    registerHandler qHash self handler = none := by
  simp [registerHandler, hnew, registerLoop_fails qHash handler handler.scanned hbad]

/-- Registration of a handler whose scanned public slots are all read in range,
under an identifier that is not yet registered: with a dispatchable operation
the registry gains the entry of the handler and `init` is called once, after the
scan; without one the manager is unchanged. -/
theorem registerHandler_fresh_spec (qHash : QString → Nat) (self : ClassHandlerManager)
    (handler : ClassHandler) (hnew : QHash.contains self.handlers handler.objectName = false)
    (hsafe : ∀ entry ∈ handler.scanned, entry.2.readsOutOfRange = false) :
    ∃ after, registerHandler qHash self handler = some after ∧
      (handler.scanned.any (fun entry => entry.2.isDispatchable) = true →
        QHash.find? after.handlers handler.objectName =
          some (some (scanDescriptor qHash handler handler.scanned PluginDescriptor.new)) ∧
        after.calls = self.calls ++ [Call.init handler]) ∧
      (handler.scanned.any (fun entry => entry.2.isDispatchable) = false → after = self) := by
  obtain ⟨after, hafter⟩ := registerHandler_returns qHash self handler hsafe
  have hres := registerHandler_fresh qHash self after handler hnew hafter
  refine ⟨after, hafter, ?_, ?_⟩
  · intro hany
    rw [hres]
    simp [hany, QHash.find_insert_self]
  · intro hany
    rw [hres]
    simp [hany]

theorem registerHandler_twice (qHash : QString → Nat) (self : ClassHandlerManager)
    (handler : ClassHandler) :
    (registerHandler qHash self handler).bind (fun once => registerHandler qHash once handler)
      = registerHandler qHash self handler := by
  by_cases hc : QHash.contains self.handlers handler.objectName = true
  · simp [registerHandler_of_registered qHash self handler hc]
  · have hnew : QHash.contains self.handlers handler.objectName = false := by simpa using hc
    cases hreg : registerHandler qHash self handler with
    | none => rfl
    | some after =>
      have hres := registerHandler_fresh qHash self after handler hnew hreg
      by_cases hany : handler.scanned.any (fun entry => entry.2.isDispatchable) = true
      · simp only [hany, if_true] at hres
        have hc' : QHash.contains after.handlers handler.objectName = true := by
          rw [hres]; exact QHash.contains_insert_self _ _ _
        simp [registerHandler_of_registered qHash after handler hc']
      · simp only [hany, if_false] at hres
        subst hres
        simpa using hreg


/-! ## Dispatch does not depend on the order of the argument map -/

theorem fillArguments_congr (canConvert : Nat → Bool) (method : QMetaMethod)
    (a b : QHash QString QString)
    (hval : ∀ key, QHash.value a key "" = QHash.value b key "") :
    ∀ (fuel argumentIndex : Nat) (tables : List QGenericArgument × List (Option QVariant)),
      fillArguments canConvert method a fuel argumentIndex tables
        = fillArguments canConvert method b fuel argumentIndex tables := by
  intro fuel
  induction fuel with
  | zero => intro argumentIndex tables; rfl
  | succ fuel ih =>
    intro argumentIndex tables
    simp only [fillArguments, hval, ih]

theorem selectMethod_congr (qHash : QString → Nat) (self : ClassHandlerManager)
    (className methodName : QString) (a b : QHash QString QString)
    (hkeys : (QHash.keys a).Perm (QHash.keys b)) :
    selectMethod qHash self className methodName a
      = selectMethod qHash self className methodName b := by
  simp only [selectMethod, selectHash_eq, (hkeys.map qHash).sum_eq]

theorem processRequest_congr (qHash : QString → Nat) (canConvert : Nat → Bool)
    (self : ClassHandlerManager) (className methodName : QString) (a b : QHash QString QString)
    (hkeys : (QHash.keys a).Perm (QHash.keys b))
    (hval : ∀ key, QHash.value a key "" = QHash.value b key "") :
    processRequest qHash canConvert self className methodName a
      = processRequest qHash canConvert self className methodName b := by
  simp only [processRequest, selectMethod_congr qHash self className methodName a b hkeys,
    fillArguments_congr canConvert _ a b hval]


/-! ## Marshalling and invocation -/

theorem writeSlot_append {α : Type} (pre : List α) (old x : α) (post : List α) :
    writeSlot (pre ++ old :: post) pre.length x = some (pre ++ x :: post) := by
  simp [writeSlot]

theorem writeSlot_length {α : Type} (table table' : List α) (i : Nat) (x : α)
    (h : writeSlot table i x = some table') : table'.length = table.length := by
  unfold writeSlot at h
  split at h
  · simp only [Option.some.injEq] at h
    rw [← h]; simp
  · simp at h

theorem writeSlot_of_lt {α : Type} (table : List α) (i : Nat) (x : α) (h : i < table.length) :
    ∃ table', writeSlot table i x = some table' := by
  simp [writeSlot, h]

/-- The loop of `processRequest` on a method with at most as many parameters as
the arrays have slots: it returns, and slot `j` of `argumentTable`, for every
parameter index `j` from `argumentIndex` on, holds the marshalled argument. -/
theorem fillArguments_spec (canConvert : Nat → Bool) (method : QMetaMethod)
    (arguments : QHash QString QString) :
    ∀ (fuel argumentIndex : Nat) (pre : List QGenericArgument) (k : Nat)
      (variants : List (Option QVariant)),
      pre.length = argumentIndex → variants.length = argumentIndex + k →
      method.parameters.length ≤ argumentIndex + k →
      method.parameters.length - argumentIndex ≤ fuel →
      ∃ variants',
        fillArguments canConvert method arguments fuel argumentIndex
          (pre ++ List.replicate k QGenericArgument.empty, variants)
        = some (pre ++ (method.parameters.drop argumentIndex).map (marshal canConvert arguments)
            ++ List.replicate (k - (method.parameters.length - argumentIndex))
              QGenericArgument.empty, variants') := by
  intro fuel
  induction fuel with
  | zero =>
    intro i pre k variants hpre hvar hcap hfuel
    have hge : method.parameters.length ≤ i := by omega
    have hnot : ¬ i < method.parameterCount := by
      simp only [QMetaMethod.parameterCount]; omega
    refine ⟨variants, ?_⟩
    simp only [fillArguments, hnot, if_false]
    rw [List.drop_eq_nil_of_le hge]
    simp [Nat.sub_eq_zero_of_le hge]
  | succ fuel ih =>
    intro i pre k variants hpre hvar hcap hfuel
    by_cases hlt : i < method.parameterCount
    · have hlt' : i < method.parameters.length := hlt
      obtain ⟨k', hk'⟩ : ∃ k', k = k' + 1 := ⟨k - 1, by omega⟩
      subst hk'
      have hget : method.parameters.get? i = some (method.parameters[i]) := by
        rw [List.get?_eq_getElem?, List.getElem?_eq_getElem hlt']
      have hdrop : method.parameters.drop i
          = method.parameters[i] :: method.parameters.drop (i + 1) :=
        List.drop_eq_getElem_cons hlt'
      generalize method.parameters[i] = p at hget hdrop
      obtain ⟨variants1, hv1⟩ := writeSlot_of_lt variants i
        (some (QVariant.fromValue (QHash.value arguments p.1 "")))
        (by omega)
      have hlen1 := writeSlot_length _ _ _ _ hv1
      have hrep : List.replicate (k' + 1) QGenericArgument.empty
          = QGenericArgument.empty :: List.replicate k' QGenericArgument.empty := rfl
      have hk : k' + 1 - (method.parameters.length - i)
          = k' - (method.parameters.length - (i + 1)) := by omega
      simp only [fillArguments, hlt, if_true, hget, hv1]
      by_cases hc : canConvert p.2 = true
      · obtain ⟨variants2, hv2⟩ := writeSlot_of_lt variants1 i
          (some ((QVariant.fromValue
            (QHash.value arguments p.1 "")).convert p.2))
          (by omega)
        have hlen2 := writeSlot_length _ _ _ _ hv2
        have hw := writeSlot_append pre QGenericArgument.empty
          (QGenericArgument.ofVariant ((QVariant.fromValue
            (QHash.value arguments p.1 "")).convert p.2))
          (List.replicate k' QGenericArgument.empty)
        rw [hpre] at hw
        simp only [hc, if_true, hv2, hrep, hw]
        obtain ⟨variants', hres⟩ := ih (i + 1)
          (pre ++ [QGenericArgument.ofVariant ((QVariant.fromValue
            (QHash.value arguments p.1 "")).convert p.2)])
          k' variants2 (by simp [hpre]) (by omega) (by omega) (by omega)
        refine ⟨variants', ?_⟩
        rw [List.append_assoc, List.singleton_append] at hres
        rw [hres, hdrop, hk]
        simp [marshal, hc]
      · simp only [hc, Bool.false_eq_true, if_false]
        obtain ⟨variants', hres⟩ := ih (i + 1) (pre ++ [QGenericArgument.empty])
          k' variants1 (by simp [hpre]) (by omega) (by omega) (by omega)
        refine ⟨variants', ?_⟩
        rw [List.append_assoc, List.singleton_append] at hres
        rw [hrep, hres, hdrop, hk]
        simp [marshal, hc]
    · have hge : method.parameters.length ≤ i := by
        simp only [QMetaMethod.parameterCount] at hlt; omega
      refine ⟨variants, ?_⟩
      simp only [fillArguments, hlt, if_false]
      rw [List.drop_eq_nil_of_le hge]
      simp [Nat.sub_eq_zero_of_le hge]


theorem fillArguments_initial (canConvert : Nat → Bool) (method : QMetaMethod)
    (arguments : QHash QString QString) (hcap : method.parameters.length ≤ 10) :
    ∃ variants,
      fillArguments canConvert method arguments method.parameterCount 2 initialTables
        = some (QGenericArgument.request :: QGenericArgument.response ::
            ((method.parameters.drop 2).map (marshal canConvert arguments)
              ++ List.replicate (8 - (method.parameters.length - 2)) QGenericArgument.empty),
          variants) := by
  have h := fillArguments_spec canConvert method arguments method.parameterCount 2
    [QGenericArgument.request, QGenericArgument.response] 8 (List.replicate 10 none)
    rfl (by simp) (by omega) (by simp only [QMetaMethod.parameterCount]; omega)
  obtain ⟨variants, hv⟩ := h
  exact ⟨variants, by simpa [initialTables] using hv⟩

/-- The method `processRequest` when the signature hash is not a key of the
class's `methods`: the request is unhandled and nothing changes. -/
theorem processRequest_miss (qHash : QString → Nat) (canConvert : Nat → Bool)
    (self : ClassHandlerManager) (className methodName : QString)
    (arguments : QHash QString QString) (descriptor : PluginDescriptor)
    (hclass : QHash.find? self.handlers className = some (some descriptor))
    (hmiss : QHash.contains descriptor.methods
      (selectHash qHash methodName (QHash.keys arguments)) = false) :
    processRequest qHash canConvert self className methodName arguments = some (false, self) := by
  simp [processRequest, selectMethod, hclass, hmiss]

/-- The method `processRequest` when the signature hash is a key of the class's
`methods` and the method stored for it has at most ten parameters: that method
is invoked with the marshalled arguments and the request is handled. -/
theorem processRequest_hit (qHash : QString → Nat) (canConvert : Nat → Bool)
    (self : ClassHandlerManager) (className methodName : QString)
    (arguments : QHash QString QString) (descriptor : PluginDescriptor)
    (handler : ClassHandler) (methodIndex : Nat)
    (hclass : QHash.find? self.handlers className = some (some descriptor))
    (hhandler : descriptor.handler = some handler)
    (hhit : QHash.find? descriptor.methods (selectHash qHash methodName (QHash.keys arguments))
      = some (methodIndex : Int))
    (hcap : (handler.method methodIndex).parameters.length ≤ 10) :
    processRequest qHash canConvert self className methodName arguments =
      some (true, { self with
        calls := self.calls ++ [Call.invoke handler methodIndex
          (QGenericArgument.request :: QGenericArgument.response ::
            (((handler.method methodIndex).parameters.drop 2).map (marshal canConvert arguments)
              ++ List.replicate (8 - ((handler.method methodIndex).parameters.length - 2))
                QGenericArgument.empty))] }) := by
  obtain ⟨variants, hfill⟩ := fillArguments_initial canConvert (handler.method methodIndex)
    arguments hcap
  have hpos : ((methodIndex : Int) > -1) := by omega
  simp [processRequest, selectMethod, hclass, QHash.contains, QHash.value, hhit, hpos,
    QHash.index, hhandler, hfill]


/-! ## Paths and their segments -/

theorem splitGo_segment (sep : Char) (seg : List Char) (hsep : sep ∉ seg) :
    ∀ (rest cur : List Char),
      splitGo sep (seg ++ rest) cur = splitGo sep rest (seg.reverse ++ cur) := by
  induction seg with
  | nil => intro rest cur; rfl
  | cons c cs ih =>
    intro rest cur
    have hc : c ≠ sep := fun h => hsep (by simp [h])
    have hcs : sep ∉ cs := fun h => hsep (List.mem_cons_of_mem _ h)
    have hstep : splitGo sep ((c :: cs) ++ rest) cur = splitGo sep (cs ++ rest) (c :: cur) := by
      simp only [List.cons_append, splitGo, hc, if_false]
      rfl
    rw [hstep, ih hcs]
    simp

theorem isSegment_iff (s : QString) :
    isSegment s = true ↔ s.data ≠ [] ∧ '/' ∉ s.data := by
  unfold isSegment
  have h : s ≠ "" ↔ s.data ≠ [] := by
    constructor
    · intro hs hd; apply hs; exact String.ext hd
    · intro hd hs; apply hd; rw [hs]
  simp [h]

theorem splitGo_pathOf_pending (segments : List QString)
    (hseg : ∀ s ∈ segments, isSegment s = true) :
    ∀ cur : List Char, cur ≠ [] →
      splitGo '/' (pathOf segments).data cur = cur.reverse :: segments.map String.data := by
  induction segments with
  | nil => intro cur hcur; simp [pathOf, splitGo, hcur]
  | cons s rest ih =>
    intro cur hcur
    obtain ⟨hne, hsep⟩ := (isSegment_iff s).mp (hseg s (List.mem_cons_self _ _))
    have hrest : ∀ t ∈ rest, isSegment t = true := fun t ht => hseg t (List.mem_cons_of_mem _ ht)
    have hdata : (pathOf (s :: rest)).data = '/' :: (s.data ++ (pathOf rest).data) := by
      simp [pathOf, String.data_append]
    rw [hdata]
    simp only [splitGo, if_true, hcur, if_false]
    rw [splitGo_segment '/' s.data hsep, List.append_nil, ih hrest _ (by simpa using hne)]
    simp

theorem split_pathOf (segments : List QString) (hseg : ∀ s ∈ segments, isSegment s = true) :
    split (pathOf segments) '/' = segments := by
  unfold split
  cases segments with
  | nil => simp [pathOf, splitGo]
  | cons s rest =>
    obtain ⟨hne, hsep⟩ := (isSegment_iff s).mp (hseg s (List.mem_cons_self _ _))
    have hrest : ∀ t ∈ rest, isSegment t = true := fun t ht => hseg t (List.mem_cons_of_mem _ ht)
    have hdata : (pathOf (s :: rest)).data = '/' :: (s.data ++ (pathOf rest).data) := by
      simp [pathOf, String.data_append]
    rw [hdata]
    simp only [splitGo, if_true]
    rw [splitGo_segment '/' s.data hsep, List.append_nil,
      splitGo_pathOf_pending rest hrest _ (by simpa using hne)]
    simp [Function.comp_def]

/-! ## The argument map of a path -/

theorem QHash.insert_of_not_mem {K V : Type} [DecidableEq K] (m : QHash K V) (k : K) (v : V)
    (h : k ∉ QHash.keys m) : QHash.insert m k v = m ++ [(k, v)] := by
  induction m with
  | nil => rfl
  | cons p m ih =>
    obtain ⟨k', v'⟩ := p
    simp only [QHash.keys, List.map_cons, List.mem_cons, not_or] at h
    have hne : k' ≠ k := fun e => h.1 e.symm
    simp only [QHash.insert, hne, if_false, List.cons_append]
    rw [ih h.2]

theorem insertPairs_segmentsOf (pairs : List (QString × QString)) :
    ∀ arguments : QHash QString QString,
      (pairs.map Prod.fst).Nodup → (∀ p ∈ pairs, p.1 ∉ QHash.keys arguments) →
      insertPairs (segmentsOf pairs) arguments = arguments ++ pairs := by
  induction pairs with
  | nil => intro arguments _ _; simp [segmentsOf, insertPairs]
  | cons p rest ih =>
    intro arguments hnd hfresh
    obtain ⟨key, value⟩ := p
    simp only [List.map_cons, List.nodup_cons] at hnd
    have hk : key ∉ QHash.keys arguments := hfresh (key, value) (List.mem_cons_self _ _)
    simp only [segmentsOf, insertPairs, QHash.insert_of_not_mem arguments key value hk]
    rw [ih _ hnd.2]
    · simp
    · intro q hq
      simp only [QHash.keys, List.map_append, List.map_cons, List.map_nil, List.mem_append,
        List.mem_singleton, not_or]
      refine ⟨hfresh q (List.mem_cons_of_mem _ hq), ?_⟩
      intro hqk
      exact hnd.1 (hqk ▸ List.mem_map_of_mem Prod.fst hq)

theorem segmentsOf_length (pairs : List (QString × QString)) :
    (segmentsOf pairs).length = 2 * pairs.length := by
  induction pairs with
  | nil => rfl
  | cons p rest ih =>
    obtain ⟨key, value⟩ := p
    simp only [segmentsOf, List.length_cons, ih]
    omega


/-! ## The descriptor built by the scan -/

theorem mem_scanned_iff (handler : ClassHandler) (methodIndex : Nat) (method : QMetaMethod) :
    (methodIndex, method) ∈ handler.scanned ↔
      handler.methodOffset ≤ methodIndex ∧ handler.methods.get? methodIndex = some method := by
  unfold ClassHandler.scanned
  rw [List.mem_iff_getElem?]
  simp only [List.getElem?_drop, List.getElem?_enum, List.get?_eq_getElem?]
  constructor
  · rintro ⟨k, hk⟩
    cases hm : handler.methods[handler.methodOffset + k]? with
    | none => simp [hm] at hk
    | some a =>
      simp only [hm, Option.map_some', Option.some.injEq, Prod.mk.injEq] at hk
      obtain ⟨h1, h2⟩ := hk
      subst h1 h2
      exact ⟨Nat.le_add_right _ _, hm⟩
  · rintro ⟨hle, hm⟩
    refine ⟨methodIndex - handler.methodOffset, ?_⟩
    have : handler.methodOffset + (methodIndex - handler.methodOffset) = methodIndex := by omega
    rw [this, hm]
    rfl

theorem method_of_mem_scanned (handler : ClassHandler) (entry : Nat × QMetaMethod)
    (h : entry ∈ handler.scanned) : handler.method (entry.1 : Int) = entry.2 := by
  have hget := ((mem_scanned_iff handler entry.1 entry.2).mp h).2
  have hneg : ¬ ((entry.1 : Int) < 0) := by omega
  simp only [ClassHandler.method, hneg, if_false, Int.toNat_ofNat, hget, Option.getD_some]

theorem scanDescriptor_methodNames (qHash : QString → Nat) (handler : ClassHandler)
    (entries : List (Nat × QMetaMethod)) :
    ∀ descriptor : PluginDescriptor,
      (scanDescriptor qHash handler entries descriptor).methodNames
        = descriptor.methodNames
          ++ (entries.filter (fun entry => entry.2.isDispatchable)).map (fun entry => entry.2.name)
      := by
  induction entries with
  | nil => intro descriptor; simp [scanDescriptor]
  | cons entry rest ih =>
    intro descriptor
    by_cases hd : entry.2.isDispatchable = true
    · simp [scanDescriptor, hd, ih, addMethod]
    · simp [scanDescriptor, hd, ih]

theorem scanDescriptor_handler (qHash : QString → Nat) (handler : ClassHandler)
    (entries : List (Nat × QMetaMethod)) :
    ∀ descriptor : PluginDescriptor,
      (descriptor.handler = some handler ∨
        entries.any (fun entry => entry.2.isDispatchable) = true) →
      (scanDescriptor qHash handler entries descriptor).handler = some handler := by
  induction entries with
  | nil => intro descriptor h; simpa [scanDescriptor] using h
  | cons entry rest ih =>
    intro descriptor h
    by_cases hd : entry.2.isDispatchable = true
    · simp only [scanDescriptor, hd, if_true]
      exact ih _ (Or.inl rfl)
    · simp only [scanDescriptor, hd, if_false]
      apply ih
      rcases h with h | h
      · exact Or.inl h
      · right; simpa [hd] using h

/-- Every value of the `methods` map built by the scan is the index of a scanned
dispatchable method whose signature hash is the key. -/
theorem scanDescriptor_methods_sound (qHash : QString → Nat) (handler : ClassHandler)
    (entries : List (Nat × QMetaMethod)) :
    ∀ (descriptor : PluginDescriptor) (parameterHash : Nat) (methodIndex : Int),
      QHash.find? (scanDescriptor qHash handler entries descriptor).methods parameterHash
        = some methodIndex →
      QHash.find? descriptor.methods parameterHash = some methodIndex ∨
      ∃ entry ∈ entries, entry.2.isDispatchable = true ∧ (entry.1 : Int) = methodIndex ∧
        registerHash qHash entry.2 = parameterHash := by
  induction entries with
  | nil => intro descriptor parameterHash methodIndex h; exact Or.inl h
  | cons entry rest ih =>
    intro descriptor parameterHash methodIndex h
    by_cases hd : entry.2.isDispatchable = true
    · simp only [scanDescriptor, hd, if_true] at h
      rcases ih _ _ _ h with h1 | ⟨e, he, h2⟩
      · by_cases hk : registerHash qHash entry.2 = parameterHash
        · right
          refine ⟨entry, List.mem_cons_self _ _, hd, ?_, hk⟩
          simp only [addMethod] at h1
          rw [← hk, QHash.find_insert_self] at h1
          exact Option.some.inj h1
        · left
          simp only [addMethod] at h1
          rw [QHash.find_insert_ne _ _ _ _ hk] at h1
          exact h1
      · exact Or.inr ⟨e, List.mem_cons_of_mem _ he, h2⟩
    · simp only [scanDescriptor, hd, if_false] at h
      rcases ih _ _ _ h with h1 | ⟨e, he, h2⟩
      · exact Or.inl h1
      · exact Or.inr ⟨e, List.mem_cons_of_mem _ he, h2⟩

theorem scanDescriptor_methods_keep (qHash : QString → Nat) (handler : ClassHandler)
    (entries : List (Nat × QMetaMethod)) :
    ∀ (descriptor : PluginDescriptor) (parameterHash : Nat),
      QHash.contains descriptor.methods parameterHash = true →
      QHash.contains (scanDescriptor qHash handler entries descriptor).methods parameterHash
        = true := by
  induction entries with
  | nil => intro descriptor parameterHash h; exact h
  | cons entry rest ih =>
    intro descriptor parameterHash h
    by_cases hd : entry.2.isDispatchable = true
    · simp only [scanDescriptor, hd, if_true]
      apply ih
      simp only [addMethod, QHash.contains] at h ⊢
      by_cases hk : registerHash qHash entry.2 = parameterHash
      · rw [← hk, QHash.find_insert_self]; rfl
      · rw [QHash.find_insert_ne _ _ _ _ hk]; exact h
    · simp only [scanDescriptor, hd, if_false]
      exact ih _ _ h

/-- The signature hash of every scanned dispatchable method is a key of the
`methods` map built by the scan. -/
theorem scanDescriptor_methods_complete (qHash : QString → Nat) (handler : ClassHandler)
    (entries : List (Nat × QMetaMethod)) :
    ∀ (descriptor : PluginDescriptor) (entry : Nat × QMetaMethod),
      entry ∈ entries → entry.2.isDispatchable = true →
      QHash.contains (scanDescriptor qHash handler entries descriptor).methods
        (registerHash qHash entry.2) = true := by
  induction entries with
  | nil => intro descriptor entry he; simp at he
  | cons first rest ih =>
    intro descriptor entry he hdisp
    rcases List.mem_cons.mp he with h | h
    · subst h
      simp only [scanDescriptor, hdisp, if_true]
      apply scanDescriptor_methods_keep
      simp [addMethod, QHash.contains, QHash.find_insert_self]
    · by_cases hd : first.2.isDispatchable = true
      · simp only [scanDescriptor, hd, if_true]
        exact ih _ entry h hdisp
      · simp only [scanDescriptor, hd, if_false]
        exact ih _ entry h hdisp


/-! ## Dispatch to a registered slot -/

theorem Registered.entry {qHash : QString → Nat} {self : ClassHandlerManager}
    {handler : ClassHandler} (hreg : Registered qHash self handler) :
    handler.scanned.any (fun entry => entry.2.isDispatchable) = true ∧
    QHash.find? self.handlers handler.objectName
      = some (some (scanDescriptor qHash handler handler.scanned PluginDescriptor.new)) := by
  obtain ⟨before, after, hnew, hrh, hcont, hfind⟩ := hreg
  have hres := registerHandler_fresh qHash before after handler hnew hrh
  by_cases hany : handler.scanned.any (fun entry => entry.2.isDispatchable) = true
  · refine ⟨hany, ?_⟩
    rw [hfind, hres]
    simp [hany, QHash.find_insert_self]
  · have hres' : after = before := by simpa [hany] using hres
    rw [hres', hnew] at hcont
    exact absurd hcont (by simp)

theorem QHash.find_append_of_not_mem {K V : Type} [DecidableEq K] (m m' : QHash K V) (k : K)
    (h : k ∉ QHash.keys m) : QHash.find? (m ++ m') k = QHash.find? m' k := by
  induction m with
  | nil => rfl
  | cons p m ih =>
    obtain ⟨k', v'⟩ := p
    simp only [QHash.keys, List.map_cons, List.mem_cons, not_or] at h
    have hne : k' ≠ k := fun e => h.1 e.symm
    simp only [List.cons_append, QHash.find?, hne, if_false]
    exact ih h.2

theorem marshal_zip (canConvert : Nat → Bool) (extra : List (QString × Nat)) :
    ∀ (values : List QString) (before : QHash QString QString),
      values.length = extra.length → (extra.map Prod.fst).Nodup →
      (∀ p ∈ extra, p.1 ∉ QHash.keys before) →
      extra.map (marshal canConvert (before ++ List.zip (extra.map Prod.fst) values))
        = List.zipWith (fun p value => marshal canConvert [(p.1, value)] p) extra values := by
  induction extra with
  | nil => intro values before _ _ _; simp
  | cons p rest ih =>
    intro values before hlen hnd hfresh
    match values, hlen with
    | value :: values', hlen =>
      simp only [List.map_cons, List.nodup_cons] at hnd
      simp only [List.length_cons, Nat.add_right_cancel_iff] at hlen
      have hp : p.1 ∉ QHash.keys before := hfresh p (List.mem_cons_self _ _)
      have hhead : marshal canConvert
          (before ++ List.zip ((p :: rest).map Prod.fst) (value :: values')) p
          = marshal canConvert [(p.1, value)] p := by
        simp [marshal, QHash.value, QHash.find_append_of_not_mem _ _ _ hp, QHash.find?]
      have htail := ih values' (before ++ [(p.1, value)]) hlen hnd.2 (by
        intro q hq
        simp only [QHash.keys, List.map_append, List.map_cons, List.map_nil, List.mem_append,
          List.mem_singleton, not_or]
        refine ⟨hfresh q (List.mem_cons_of_mem _ hq), ?_⟩
        intro hqp
        exact hnd.1 (hqp ▸ List.mem_map_of_mem Prod.fst hq))
      simp only [List.append_assoc, List.singleton_append] at htail
      simp only [List.map_cons, List.zip_cons_cons, List.zipWith_cons_cons] at hhead ⊢
      rw [hhead, htail]

theorem map_fst_zip_of_length (names : List QString) (values : List QString)
    (h : values.length = names.length) : (List.zip names values).map Prod.fst = names := by
  induction names generalizing values with
  | nil => simp
  | cons n ns ih =>
    match values, h with
    | v :: vs, h =>
      simp only [List.length_cons, Nat.add_right_cancel_iff] at h
      simp [ih vs h]

theorem isSegment_segmentsOf (pairs : List (QString × QString))
    (h : ∀ p ∈ pairs, isSegment p.1 = true ∧ isSegment p.2 = true) :
    ∀ s ∈ segmentsOf pairs, isSegment s = true := by
  induction pairs with
  | nil => intro s hs; simp [segmentsOf] at hs
  | cons p rest ih =>
    obtain ⟨key, value⟩ := p
    intro s hs
    simp only [segmentsOf, List.mem_cons] at hs
    have hp := h (key, value) (List.mem_cons_self _ _)
    rcases hs with hs | hs | hs
    · rw [hs]; exact hp.1
    · rw [hs]; exact hp.2
    · exact ih (fun q hq => h q (List.mem_cons_of_mem _ hq)) s hs


/-- Dispatch to a public slot `slot(request, response, p₁ … pₙ)` of a registered
handler, on the path that names the class, the slot and each `pᵢ` with a value. -/
theorem handleRequest_dispatch (qHash : QString → Nat) (canConvert : Nat → Bool)
    (self : ClassHandlerManager) (handler : ClassHandler) (methodIndex : Nat)
    (slot : QMetaMethod) (requestId responseId : Nat) (extra : List (QString × Nat))
    (values : List QString)
    (hctx : self.m_context = "")
    (hreg : Registered qHash self handler)
    (hoff : handler.methodOffset ≤ methodIndex)
    (hslot : handler.methods.get? methodIndex = some slot)
    (hpublic : slot.methodType = MethodType.Slot ∧ slot.access = Access.Public)
    (hparams : slot.parameters = ("request", requestId) :: ("response", responseId) :: extra)
    (hcount : extra.length ≤ 8)
    (hvalues : values.length = extra.length)
    (hdistinct : (extra.map Prod.fst).Nodup)
    (hclass : isSegment handler.objectName = true)
    (hname : isSegment slot.name = true)
    (hkeys : ∀ p ∈ extra, isSegment p.1 = true)
    (hvals : ∀ value ∈ values, isSegment value = true)
    (hcap : ∀ entry ∈ handler.scanned, entry.2.isDispatchable = true →
      entry.2.parameters.length ≤ 10) :
    ∃ after,
      handleRequest qHash canConvert self
        (pathOf (handler.objectName :: slot.name ::
          segmentsOf (List.zip (extra.map Prod.fst) values))) = some (true, after) ∧
      after.handlers = self.handlers ∧
      ((∀ entry ∈ handler.scanned, entry.2.isDispatchable = true → entry.1 = methodIndex) →
        after.calls = self.calls ++ [Call.setContext "", Call.invoke handler methodIndex
          (QGenericArgument.request :: QGenericArgument.response ::
            (List.zipWith (fun p value => marshal canConvert [(p.1, value)] p) extra values
              ++ List.replicate (8 - extra.length) QGenericArgument.empty))]) := by
  obtain ⟨hany, hentry⟩ := hreg.entry
  have hmem : (methodIndex, slot) ∈ handler.scanned :=
    (mem_scanned_iff handler methodIndex slot).mpr ⟨hoff, hslot⟩
  have hdisp : slot.isDispatchable = true := by
    simp [QMetaMethod.isDispatchable, hpublic.1, hpublic.2, QMetaMethod.parameterNames, hparams]
  have hzipfst := map_fst_zip_of_length (extra.map Prod.fst) values (by simpa using hvalues)
  have hziplen : (List.zip (extra.map Prod.fst) values).length = extra.length := by
    simp [hvalues]
  -- the path splits into its segments
  have hsegs : ∀ s ∈ handler.objectName :: slot.name ::
      segmentsOf (List.zip (extra.map Prod.fst) values), isSegment s = true := by
    intro s hs
    rcases List.mem_cons.mp hs with h | hs
    · rw [h]; exact hclass
    rcases List.mem_cons.mp hs with h | hs
    · rw [h]; exact hname
    apply isSegment_segmentsOf _ _ s hs
    intro p hp
    have hp' := List.of_mem_zip hp
    obtain ⟨q, hq, hq'⟩ := List.mem_map.mp hp'.1
    exact ⟨hq' ▸ hkeys q hq, hvals _ hp'.2⟩
  have hsplit := split_pathOf _ hsegs
  have hcs : self.contextSegments = [] := by simp [ClassHandlerManager.contextSegments, hctx]
  have hacc := handleRequest_accepted qHash canConvert self _ handler.objectName slot.name
    (segmentsOf (List.zip (extra.map Prod.fst) values)) (by rw [hcs, hsplit]; rfl)
    (by rw [segmentsOf_length, hziplen]; omega)
  have heven : (segmentsOf (List.zip (extra.map Prod.fst) values)).length % 2 = 0 := by
    rw [segmentsOf_length]; omega
  have hnames : (scanDescriptor qHash handler handler.scanned
      PluginDescriptor.new).methodNames.contains slot.name = true := by
    have hin : slot.name ∈ (scanDescriptor qHash handler handler.scanned
        PluginDescriptor.new).methodNames := by
      rw [scanDescriptor_methodNames]
      exact List.mem_append_right _
        (List.mem_map.mpr ⟨(methodIndex, slot), List.mem_filter.mpr ⟨hmem, hdisp⟩, rfl⟩)
    simpa using hin
  have hargs : insertPairs (segmentsOf (List.zip (extra.map Prod.fst) values)) []
      = List.zip (extra.map Prod.fst) values := by
    have := insertPairs_segmentsOf (List.zip (extra.map Prod.fst) values) []
      (by rw [hzipfst]; exact hdistinct) (by intro p _; simp [QHash.keys])
    simpa using this
  simp only [heven, if_true, hentry, hnames, hargs] at hacc
  -- the signature hash of the request is the one recorded for the slot
  have hhash : selectHash qHash slot.name (QHash.keys (List.zip (extra.map Prod.fst) values))
      = registerHash qHash slot := by
    rw [selectHash_eq, registerHash_eq]
    simp only [QHash.keys, hzipfst, QMetaMethod.parameterNames, hparams, List.map_cons,
      List.sum_cons, List.map_map]
    congr 1
    have : ((List.map (qHash ∘ Prod.fst) extra)).sum = (List.map qHash (List.map Prod.fst extra)).sum := by
      rw [List.map_map]
    omega
  have hcontains := scanDescriptor_methods_complete qHash handler handler.scanned
    PluginDescriptor.new (methodIndex, slot) hmem hdisp
  obtain ⟨found, hfound⟩ := Option.isSome_iff_exists.mp hcontains
  rcases scanDescriptor_methods_sound qHash handler handler.scanned PluginDescriptor.new _ _
    hfound with h | ⟨entry, hentrymem, hentrydisp, hidx, _⟩
  · simp [PluginDescriptor.new, QHash.find?] at h
  subst hidx
  have hmethod := method_of_mem_scanned handler entry hentrymem
  have hproc := processRequest_hit qHash canConvert self.afterSetContext handler.objectName
    slot.name (List.zip (extra.map Prod.fst) values) _ handler entry.1 hentry
    (scanDescriptor_handler qHash handler handler.scanned _ (Or.inr hany))
    (by rw [hhash]; exact hfound)
    (by rw [hmethod]; exact hcap entry hentrymem hentrydisp)
  rw [hproc] at hacc
  refine ⟨_, hacc, rfl, ?_⟩
  intro honly
  have hidx : entry.1 = methodIndex := honly entry hentrymem hentrydisp
  have hentry2 : entry.2 = slot := by
    have h1 := ((mem_scanned_iff handler entry.1 entry.2).mp hentrymem).2
    rw [hidx, hslot] at h1
    exact (Option.some.inj h1).symm
  have hm := marshal_zip canConvert extra values [] hvalues hdistinct
    (by intro p _; simp [QHash.keys])
  simp only [List.nil_append] at hm
  have hmethod' : handler.method (methodIndex : Int) = slot := by
    rw [← hidx, hmethod, hentry2]
  simp only [hidx, hmethod', hparams, List.drop_succ_cons, List.drop_zero, hm,
    List.length_cons, ClassHandlerManager.afterSetContext, hctx]
  simp

/-! ## Requests that the hash lookup or the path split sends elsewhere -/

/-- A handler that never set its `objectName` is registered
under the identifier `""`; the path `/C/get/id/42` for that identifier is
`//get/id/42`, whose segments are `get`, `id`, `42`, and the request is
unhandled, for every hash function and conversion predicate. -/
theorem unnamed_class_unhandled :
    ∀ (qHash : QString → Nat) (canConvert : Nat → Bool),
      ∃ registered,
        registerHandler qHash (emptyManager "") unnamedWidgets = some registered ∧
        Registered qHash registered unnamedWidgets ∧
        registered.m_context = "" ∧
        unnamedWidgets.methods.get? 1 = some getSlot ∧
        pathOf [unnamedWidgets.objectName, "get", "id", "42"] = "//get/id/42" ∧
        handleRequest qHash canConvert registered "//get/id/42"
          = some (false, registered.afterSetContext) := by
  intro qHash canConvert
  obtain ⟨registered, hreg⟩ := registerHandler_returns qHash (emptyManager "") unnamedWidgets
    (by decide)
  have hst := registerHandler_fresh qHash (emptyManager "") registered unnamedWidgets rfl hreg
  have hany : unnamedWidgets.scanned.any (fun entry => entry.2.isDispatchable) = true := by
    decide
  simp only [hany, if_true] at hst
  have hctx : registered.m_context = "" := by rw [hst]; rfl
  have hs : split "//get/id/42" '/' = registered.contextSegments ++ "get" :: "id" :: ["42"] := by
    rw [hst]; rfl
  have hacc := handleRequest_accepted qHash canConvert registered "//get/id/42" "get" "id"
    ["42"] hs (by decide)
  refine ⟨registered, hreg, ⟨emptyManager "", registered, rfl, hreg, ?_, rfl⟩, hctx, rfl,
    by decide, ?_⟩
  · rw [hst]; rfl
  · simpa using hacc

/-- The handler `Widgets` has the slots `id(request, response)` and
`get(request, response, id)`; on `/Widgets/id/get/1` the method name `id` is
known and the only argument key, `get`, is not the parameter set of the one
operation named `id`, yet the request is handled: the sum of hashes equals the
signature hash of `get(request, response, id)`, which is invoked (method index
2). This holds for every hash function and every conversion predicate. -/
theorem foreign_keys_dispatch :
    ∀ (qHash : QString → Nat) (canConvert : Nat → Bool),
      ∃ registered after : ClassHandlerManager,
        registerHandler qHash (emptyManager "") widgetsWithId = some registered ∧
        handleRequest qHash canConvert registered "/Widgets/id/get/1" = some (true, after) ∧
        after.invocations = [Call.invoke widgetsWithId 2
          (QGenericArgument.request :: QGenericArgument.response ::
            marshal canConvert [("get", "1")] ("id", QMetaType.QString) ::
            List.replicate 7 QGenericArgument.empty)] := by
  intro qHash canConvert
  obtain ⟨registered, hreg⟩ := registerHandler_returns qHash (emptyManager "") widgetsWithId
    (by decide)
  have hst := registerHandler_fresh qHash (emptyManager "") registered widgetsWithId rfl hreg
  have hany : widgetsWithId.scanned.any (fun entry => entry.2.isDispatchable) = true := by decide
  simp only [hany, if_true] at hst
  have hhash : selectHash qHash "id" (QHash.keys (insertPairs ["get", "1"] []))
      = registerHash qHash getSlot := by
    rw [selectHash_eq, registerHash_eq]
    simp only [insertPairs, QHash.insert, QHash.keys, getSlot, QMetaMethod.parameterNames,
      List.map_cons, List.map_nil, List.sum_cons, List.sum_nil]
    omega
  have hclass : QHash.find? registered.afterSetContext.handlers "Widgets"
      = some (some (scanDescriptor qHash widgetsWithId widgetsWithId.scanned
          PluginDescriptor.new)) := by
    rw [hst]; rfl
  have hhit : QHash.find?
      (scanDescriptor qHash widgetsWithId widgetsWithId.scanned PluginDescriptor.new).methods
      (selectHash qHash "id" (QHash.keys (insertPairs ["get", "1"] [])))
      = some ((2 : Nat) : Int) := by
    rw [hhash]
    exact QHash.find_insert_self _ _ _
  have hproc := processRequest_hit qHash canConvert registered.afterSetContext "Widgets" "id"
    (insertPairs ["get", "1"] []) _ widgetsWithId 2 hclass rfl hhit (by decide)
  have hs : split "/Widgets/id/get/1" '/'
      = registered.contextSegments ++ "Widgets" :: "id" :: ["get", "1"] := by
    rw [hst]; rfl
  have hacc := handleRequest_accepted qHash canConvert registered "/Widgets/id/get/1"
    "Widgets" "id" ["get", "1"] hs (by decide)
  have hclass' : QHash.find? registered.handlers "Widgets"
      = some (some (scanDescriptor qHash widgetsWithId widgetsWithId.scanned
          PluginDescriptor.new)) := hclass
  have hnames : (scanDescriptor qHash widgetsWithId widgetsWithId.scanned
      PluginDescriptor.new).methodNames.contains "id" = true := rfl
  simp only [hclass', hnames, List.length_cons, List.length_nil, if_true, hproc] at hacc
  refine ⟨registered, _, hreg, hacc, ?_⟩
  rw [hst]
  rfl


/-! ## The plugin search locations -/

theorem addPluginLocation_of_not_mem (pluginLocations : List QString) (location : QString)
    (h : location ∉ pluginLocations) :
    addPluginLocation pluginLocations location = pluginLocations ++ [location] := by
  simp [addPluginLocation, h]

theorem addPluginLocation_of_mem (pluginLocations : List QString) (location : QString)
    (h : location ∈ pluginLocations) :
    addPluginLocation pluginLocations location = pluginLocations := by
  simp [addPluginLocation, h]

theorem addPluginLocation_extends (pluginLocations : List QString) (location : QString) :
    ∃ added, addPluginLocation pluginLocations location = pluginLocations ++ added := by
  by_cases h : location ∈ pluginLocations
  · exact ⟨[], by simp [addPluginLocation_of_mem _ _ h]⟩
  · exact ⟨[location], addPluginLocation_of_not_mem _ _ h⟩

theorem addPluginLocation_nodup (pluginLocations : List QString) (location : QString)
    (hnd : pluginLocations.Nodup) : (addPluginLocation pluginLocations location).Nodup := by
  by_cases h : location ∈ pluginLocations
  · rw [addPluginLocation_of_mem _ _ h]; exact hnd
  · rw [addPluginLocation_of_not_mem _ _ h]
    exact List.Nodup.append hnd (List.nodup_singleton _) (by simpa using h)

theorem addPluginLocation_twice (pluginLocations : List QString) (location : QString) :
    addPluginLocation (addPluginLocation pluginLocations location) location
      = addPluginLocation pluginLocations location := by
  by_cases h : location ∈ pluginLocations
  · simp [addPluginLocation_of_mem _ _ h]
  · rw [addPluginLocation_of_not_mem _ _ h]
    exact addPluginLocation_of_mem _ _ (by simp)

theorem addPluginLocations_extends (locations : List QString) :
    ∀ pluginLocations : List QString,
      ∃ added, addPluginLocations pluginLocations locations = pluginLocations ++ added := by
  induction locations with
  | nil => intro pluginLocations; exact ⟨[], by simp [addPluginLocations]⟩
  | cons location rest ih =>
    intro pluginLocations
    obtain ⟨a1, h1⟩ := addPluginLocation_extends pluginLocations location
    obtain ⟨a2, h2⟩ := ih (addPluginLocation pluginLocations location)
    refine ⟨a1 ++ a2, ?_⟩
    simp only [addPluginLocations, List.foldl_cons] at h2 ⊢
    rw [h2, h1, List.append_assoc]

theorem addPluginLocations_ne_nil (location : QString) (rest : List QString) :
    addPluginLocations [] (location :: rest) ≠ [] := by
  obtain ⟨added, h⟩ := addPluginLocations_extends rest (addPluginLocation [] location)
  simp only [addPluginLocations, List.foldl_cons] at h ⊢
  rw [h]
  simp [addPluginLocation]

theorem constructorLocations_of_nonempty (env : Environment) (pluginLocations : List QString)
    (h : pluginLocations ≠ []) : constructorLocations env pluginLocations = pluginLocations := by
  cases pluginLocations with
  | nil => exact absurd rfl h
  | cons a l => rfl

theorem libraryLocations_extends (env : Environment) (pluginLocations : List QString) :
    ∃ added, libraryLocations env pluginLocations = pluginLocations ++ added := by
  unfold libraryLocations
  generalize env.libraryPaths = paths
  induction paths generalizing pluginLocations with
  | nil => exact ⟨[], by simp⟩
  | cons p ps ih =>
    rw [List.foldl_cons]
    by_cases hd : env.dirExists (p ++ env.separator ++ "Tufao") = true
    · obtain ⟨a, ha⟩ := ih (pluginLocations ++ [env.dirAbsolutePath (p ++ env.separator ++ "Tufao")])
      refine ⟨env.dirAbsolutePath (p ++ env.separator ++ "Tufao") :: a, ?_⟩
      simp only [hd, if_true]
      rw [ha, List.append_assoc, List.singleton_append]
    · obtain ⟨a, ha⟩ := ih pluginLocations
      refine ⟨a, ?_⟩
      simp only [hd, if_false]
      exact ha

theorem installLocation_extends (env : Environment) (pluginLocations : List QString) :
    ∃ added, installLocation env pluginLocations = pluginLocations ++ added := by
  unfold installLocation
  split
  · exact ⟨_, rfl⟩
  · exact ⟨[], by simp⟩

/-- The defaults a construction on an empty list seeds: on a platform other than
Windows and macOS the directory `homePath + "/.tufao"`, and the install
location when `applicationDirPath` is a directory. -/
theorem constructorLocations_of_empty (env : Environment) :
    (env.platform = Platform.other →
      env.homePath ++ "/.tufao" ∈ constructorLocations env []) ∧
    (env.isDir env.applicationDirPath = true →
      env.fileAbsolutePath env.applicationDirPath ∈ constructorLocations env []) := by
  constructor
  · intro hp
    obtain ⟨a1, h1⟩ := libraryLocations_extends env (userLocations env [])
    obtain ⟨a2, h2⟩ := installLocation_extends env (libraryLocations env (userLocations env []))
    have : constructorLocations env []
        = installLocation env (libraryLocations env (userLocations env [])) := rfl
    rw [this, h2, h1]
    simp [userLocations, hp]
  · intro hd
    have : constructorLocations env []
        = installLocation env (libraryLocations env (userLocations env [])) := rfl
    rw [this]
    simp [installLocation, hd]


/-! ## The argument map against the specification -/

theorem QHash.find_insert {K V : Type} [DecidableEq K] (m : QHash K V) (k key : K) (v : V) :
    QHash.find? (QHash.insert m k v) key = if k = key then some v else QHash.find? m key := by
  by_cases h : k = key
  · subst h; simp [QHash.find_insert_self]
  · simp [h, QHash.find_insert_ne _ _ _ _ h]

theorem QHash.keys_insert {K V : Type} [DecidableEq K] (m : QHash K V) (k : K) (v : V) :
    QHash.keys (QHash.insert m k v)
      = if k ∈ QHash.keys m then QHash.keys m else QHash.keys m ++ [k] := by
  induction m with
  | nil => simp [QHash.insert, QHash.keys]
  | cons p m ih =>
    obtain ⟨k', v'⟩ := p
    by_cases h : k' = k
    · subst h; simp [QHash.insert, QHash.keys]
    · have h' : ¬ k = k' := fun e => h e.symm
      simp only [QHash.insert, h, if_false]
      simp only [QHash.keys, List.map_cons, List.mem_cons, h', false_or] at ih ⊢
      rw [ih]
      split <;> simp

theorem QHash.keys_insert_nodup {K V : Type} [DecidableEq K] (m : QHash K V) (k : K) (v : V)
    (h : (QHash.keys m).Nodup) : (QHash.keys (QHash.insert m k v)).Nodup := by
  rw [QHash.keys_insert]
  split
  · exact h
  · rename_i hk
    exact List.Nodup.append h (List.nodup_singleton _) (by simpa using hk)

theorem QHash.mem_keys_iff {K V : Type} [DecidableEq K] (m : QHash K V) (key : K) :
    key ∈ QHash.keys m ↔ (QHash.find? m key).isSome = true := by
  induction m with
  | nil => simp [QHash.keys, QHash.find?]
  | cons p m ih =>
    obtain ⟨k', v'⟩ := p
    by_cases h : k' = key
    · subst h; simp [QHash.keys, QHash.find?]
    · have h' : ¬ key = k' := fun e => h e.symm
      simp only [QHash.keys, List.map_cons, List.mem_cons, h', false_or, QHash.find?, h,
        if_false] at ih ⊢
      exact ih

theorem find_insertPairs :
    ∀ (rest : List QString) (arguments : QHash QString QString) (key : QString),
      QHash.find? (insertPairs rest arguments) key =
        match specLastValue rest key with
        | some later => some later
        | none => QHash.find? arguments key
  | [], arguments, key => by simp [insertPairs, specLastValue]
  | [_], arguments, key => by simp [insertPairs, specLastValue]
  | k :: v :: rest, arguments, key => by
    have ih := find_insertPairs rest (QHash.insert arguments k v) key
    simp only [insertPairs, specLastValue, ih, QHash.find_insert]
    cases specLastValue rest key with
    | some later => rfl
    | none => by_cases h : k = key <;> simp [h]

theorem keys_insertPairs_nodup :
    ∀ (rest : List QString) (arguments : QHash QString QString),
      (QHash.keys arguments).Nodup → (QHash.keys (insertPairs rest arguments)).Nodup
  | [], arguments, h => by simpa [insertPairs] using h
  | [_], arguments, h => by simpa [insertPairs] using h
  | k :: v :: rest, arguments, h => by
    simp only [insertPairs]
    exact keys_insertPairs_nodup rest _ (QHash.keys_insert_nodup arguments k v h)

theorem specLastValue_isSome :
    ∀ (rest : List QString) (key : QString),
      (specLastValue rest key).isSome = true ↔ key ∈ specKeys rest
  | [], key => by simp [specLastValue, specKeys]
  | [_], key => by simp [specLastValue, specKeys]
  | k :: v :: rest, key => by
    have ih := specLastValue_isSome rest key
    simp only [specLastValue, specKeys, List.mem_cons]
    cases hl : specLastValue rest key with
    | some later =>
      rw [hl] at ih
      simp only [Option.isSome_some, true_iff] at ih ⊢
      exact Or.inr ih
    | none =>
      rw [hl] at ih
      simp only [Option.isSome_none, Bool.false_eq_true, false_iff] at ih
      by_cases h : k = key
      · simp [h]
      · have h' : ¬ key = k := fun e => h e.symm
        simp [h, h', ih]

/-- The argument map of an even number of segments, against the specification:
every key is mapped to the value after its last occurrence at an even offset,
and the map has one entry for each distinct such key. -/
theorem insertPairs_spec (rest : List QString) :
    (∀ key, QHash.find? (insertPairs rest []) key = specLastValue rest key) ∧
    (QHash.keys (insertPairs rest [])).Nodup ∧
    (∀ key, key ∈ QHash.keys (insertPairs rest []) ↔ key ∈ specKeys rest) := by
  have hfind : ∀ key, QHash.find? (insertPairs rest []) key = specLastValue rest key := by
    intro key
    rw [find_insertPairs]
    cases specLastValue rest key <;> simp [QHash.find?]
  refine ⟨hfind, keys_insertPairs_nodup rest [] (by simp [QHash.keys]), ?_⟩
  intro key
  rw [QHash.mem_keys_iff, hfind, specLastValue_isSome]

theorem length_insertPairs :
    ∀ (rest : List QString) (arguments : QHash QString QString),
      (insertPairs rest arguments).length ≤ arguments.length + rest.length / 2
  | [], arguments => by simp [insertPairs]
  | [_], arguments => by simp [insertPairs]
  | k :: v :: rest, arguments => by
    have ih := length_insertPairs rest (QHash.insert arguments k v)
    have hk : (QHash.keys (QHash.insert arguments k v)).length ≤ (QHash.keys arguments).length + 1 := by
      rw [QHash.keys_insert]
      split <;> simp
    simp only [QHash.keys, List.length_map] at hk
    simp only [insertPairs, List.length_cons]
    omega


/-! ## Routing leaves the registry alone -/

theorem selectMethod_some (qHash : QString → Nat) (self : ClassHandlerManager)
    (className methodName : QString) (arguments : QHash QString QString) (methodIndex : Int)
    (h : selectMethod qHash self className methodName arguments = some methodIndex) :
    ∃ descriptor, QHash.find? self.handlers className = some (some descriptor) ∧
      methodIndex =
        if QHash.contains descriptor.methods
            (selectHash qHash methodName (QHash.keys arguments)) then
          QHash.value descriptor.methods (selectHash qHash methodName (QHash.keys arguments)) 0
        else -1 := by
  unfold selectMethod at h
  cases hf : QHash.find? self.handlers className with
  | none => simp [hf] at h
  | some v =>
    cases v with
    | none => simp [hf] at h
    | some d =>
      refine ⟨d, rfl, ?_⟩
      simp only [hf] at h
      split at h <;> rename_i hc <;> simp only [Option.some.injEq] at h <;> simp [hc, h]

theorem processRequest_frame (qHash : QString → Nat) (canConvert : Nat → Bool)
    (self : ClassHandlerManager) (className methodName : QString)
    (arguments : QHash QString QString) (result : Bool × ClassHandlerManager)
    (h : processRequest qHash canConvert self className methodName arguments = some result) :
    result.2.handlers = self.handlers ∧ result.2.m_context = self.m_context := by
  unfold processRequest at h
  cases hsel : selectMethod qHash self className methodName arguments with
  | none => simp [hsel] at h
  | some methodIndex =>
    obtain ⟨d, hd, _⟩ := selectMethod_some qHash self className methodName arguments _ hsel
    simp only [hsel, QHash.index_of_find _ _ none _ hd] at h
    split at h
    · cases hh : d.handler with
      | none => simp [hh] at h
      | some handler =>
        simp only [hh] at h
        cases hfill : fillArguments canConvert (handler.method methodIndex) arguments
            (handler.method methodIndex).parameterCount 2 initialTables with
        | none => simp [hfill] at h
        | some tables =>
          simp only [hfill, if_true, Option.some.injEq] at h
          rw [← h]
          exact ⟨rfl, rfl⟩
    · simp only [Option.some.injEq] at h
      rw [← h]
      exact ⟨rfl, rfl⟩

/-- The method `handleRequest` either fails or returns a state with the registry
and the context it started from. -/
theorem handleRequest_frame_of_some (qHash : QString → Nat) (canConvert : Nat → Bool)
    (self : ClassHandlerManager) (url : QString) (result : Bool × ClassHandlerManager)
    (h : handleRequest qHash canConvert self url = some result) :
    result.2.handlers = self.handlers ∧ result.2.m_context = self.m_context := by
  by_cases hlen : (split url '/').length < self.minimumPathComponents ∨
      self.minimumPathComponents + 16 < (split url '/').length
  · rw [handleRequest_of_length qHash canConvert self url hlen] at h
    simp only [Option.some.injEq] at h
    rw [← h]; exact ⟨rfl, rfl⟩
  · by_cases hfirst : self.m_context ≠ "" → (split url '/').head? = some self.m_context
    · obtain ⟨className, methodName, rest, hs, hl⟩ :=
        split_decompose self url (by omega) hfirst
      rw [handleRequest_accepted qHash canConvert self url className methodName rest hs
        (by omega)] at h
      split at h
      · cases hf : QHash.find? self.handlers className with
        | none =>
          simp only [hf, Option.some.injEq] at h
          rw [← h]; exact ⟨rfl, rfl⟩
        | some v =>
          cases v with
          | none => simp [hf] at h
          | some d =>
            simp only [hf] at h
            split at h
            · exact processRequest_frame qHash canConvert self.afterSetContext className
                methodName _ result h
            · simp only [Option.some.injEq] at h
              rw [← h]; exact ⟨rfl, rfl⟩
      · simp only [Option.some.injEq] at h
        rw [← h]; exact ⟨rfl, rfl⟩
    · push_neg at hfirst
      rw [handleRequest_of_foreign_context qHash canConvert self url hfirst.1 hfirst.2] at h
      simp only [Option.some.injEq] at h
      rw [← h]; exact ⟨rfl, rfl⟩


/-! ## What a selected index stands for -/

theorem selectMethod_registered (qHash : QString → Nat) (self : ClassHandlerManager)
    (handler : ClassHandler) (methodName : QString) (arguments : QHash QString QString)
    (methodIndex : Int) (hreg : Registered qHash self handler)
    (hsel : selectMethod qHash self handler.objectName methodName arguments = some methodIndex)
    (hpos : methodIndex > -1) :
    ∃ entry ∈ handler.scanned, entry.2.isDispatchable = true ∧ (entry.1 : Int) = methodIndex ∧
      handler.method methodIndex = entry.2 ∧
      registerHash qHash entry.2 = selectHash qHash methodName (QHash.keys arguments) := by
  obtain ⟨_, hentry⟩ := hreg.entry
  obtain ⟨d, hd, hidx⟩ := selectMethod_some qHash self handler.objectName methodName arguments
    methodIndex hsel
  rw [hentry] at hd
  have hd' := Option.some.inj (Option.some.inj hd)
  subst hd'
  by_cases hc : QHash.contains
      (scanDescriptor qHash handler handler.scanned PluginDescriptor.new).methods
      (selectHash qHash methodName (QHash.keys arguments)) = true
  · obtain ⟨found, hfound⟩ := Option.isSome_iff_exists.mp hc
    have hval : methodIndex = found := by
      rw [hidx]; simp [hc, QHash.value, hfound]
    rcases scanDescriptor_methods_sound qHash handler handler.scanned PluginDescriptor.new _ _
      hfound with h | ⟨entry, hmem, hdisp, hi, hh⟩
    · simp [PluginDescriptor.new, QHash.find?] at h
    · refine ⟨entry, hmem, hdisp, by rw [hval, hi], ?_, hh⟩
      rw [hval, ← hi]
      exact method_of_mem_scanned handler entry hmem
  · rw [if_neg hc] at hidx
    omega


/-! ## The slots written by `processRequest` -/

theorem writeSlot_get_of_ne {α : Type} (table table' : List α) (i j : Nat) (x : α)
    (h : writeSlot table i x = some table') (hne : i ≠ j) : table'.get? j = table.get? j := by
  unfold writeSlot at h
  split at h
  · simp only [Option.some.injEq] at h
    rw [← h]
    simp [List.getElem?_set, hne]
  · simp at h

/-- The loop of `processRequest` keeps the sizes of both arrays and leaves every
slot of `variants` below the index it started at as it was. -/
theorem fillArguments_below (canConvert : Nat → Bool) (method : QMetaMethod)
    (arguments : QHash QString QString) :
    ∀ (fuel argumentIndex : Nat) (tables result : List QGenericArgument × List (Option QVariant)),
      fillArguments canConvert method arguments fuel argumentIndex tables = some result →
      result.1.length = tables.1.length ∧ result.2.length = tables.2.length ∧
      ∀ j, j < argumentIndex → result.2.get? j = tables.2.get? j := by
  intro fuel
  induction fuel with
  | zero =>
    intro i tables result h
    simp only [fillArguments] at h
    split at h
    · simp at h
    · simp only [Option.some.injEq] at h
      subst h
      exact ⟨rfl, rfl, fun _ _ => rfl⟩
  | succ fuel ih =>
    intro i tables result h
    simp only [fillArguments] at h
    split at h
    · split at h
      · simp at h
      · rename_i parameterName methodType _
        generalize hp : (parameterName, methodType) = p at h
        have hp1 : parameterName = p.1 := by rw [← hp]
        have hp2 : methodType = p.2 := by rw [← hp]
        rw [hp1, hp2] at h
        cases hv1 : writeSlot tables.2 i
            (some (QVariant.fromValue (QHash.value arguments p.1 ""))) with
        | none => simp [hv1] at h
        | some variants1 =>
          simp only [hv1] at h
          have hl1 := writeSlot_length _ _ _ _ hv1
          by_cases hc : canConvert p.2 = true
          · simp only [hc, if_true] at h
            cases hv2 : writeSlot variants1 i (some ((QVariant.fromValue
                (QHash.value arguments p.1 "")).convert p.2)) with
            | none => simp [hv2] at h
            | some variants2 =>
              cases ht : writeSlot tables.1 i (QGenericArgument.ofVariant
                  ((QVariant.fromValue (QHash.value arguments p.1 "")).convert p.2)) with
              | none => simp [hv2, ht] at h
              | some table1 =>
                simp only [hv2, ht] at h
                have hl2 := writeSlot_length _ _ _ _ hv2
                have hlt := writeSlot_length _ _ _ _ ht
                obtain ⟨r1, r2, r3⟩ := ih (i + 1) (table1, variants2) result h
                refine ⟨by rw [r1]; exact hlt, by rw [r2]; simp only []; omega, ?_⟩
                intro j hj
                rw [r3 j (by omega)]
                simp only []
                rw [writeSlot_get_of_ne _ _ i j _ hv2 (by omega),
                  writeSlot_get_of_ne _ _ i j _ hv1 (by omega)]
          · simp only [hc, Bool.false_eq_true, if_false] at h
            obtain ⟨r1, r2, r3⟩ := ih (i + 1) (tables.1, variants1) result h
            refine ⟨r1, by rw [r2]; exact hl1, ?_⟩
            intro j hj
            rw [r3 j (by omega)]
            simp only []
            rw [writeSlot_get_of_ne _ _ i j _ hv1 (by omega)]
    · simp only [Option.some.injEq] at h
      subst h
      exact ⟨rfl, rfl, fun _ _ => rfl⟩

/-- On a method with at most ten parameters the loop of `processRequest`
returns, and the slots of `variants` it has written lie in the range 2..9. -/
theorem fillArguments_in_range (canConvert : Nat → Bool) (method : QMetaMethod)
    (arguments : QHash QString QString) (hcap : method.parameters.length ≤ 10) :
    ∃ tables,
      fillArguments canConvert method arguments method.parameterCount 2 initialTables
        = some tables ∧
      tables.1.length = 10 ∧ tables.2.length = 10 ∧
      ∀ i value, tables.2.get? i = some (some value) → 2 ≤ i ∧ i ≤ 9 := by
  obtain ⟨variants, hfill⟩ := fillArguments_initial canConvert method arguments hcap
  obtain ⟨h1, h2, h3⟩ := fillArguments_below canConvert method arguments _ _ _ _ hfill
  refine ⟨_, hfill, ?_, ?_, ?_⟩
  · rw [h1]; rfl
  · rw [h2]; rfl
  · intro i value hi
    have hlt : i < 10 := by
      have hlen : variants.length = 10 := by simpa [initialTables] using h2
      have := List.get?_eq_some.mp hi
      obtain ⟨hh, _⟩ := this
      simp only [] at hh
      omega
    refine ⟨?_, by omega⟩
    by_contra hlt2
    have := h3 i (by omega)
    rw [hi] at this
    have hinit : initialTables.2.get? i = some none := by
      have : i = 0 ∨ i = 1 := by omega
      rcases this with h | h <;> subst h <;> rfl
    rw [hinit] at this
    simp at this


/-! ## What registration records, and what invocation depends on -/

/-- Registration of a handler whose scanned public slots are all read in range
and one of which is dispatchable, under an identifier that is not yet
registered: `methodNames` lists the names of the dispatchable methods in
declaration order, the signature hash of each of them is a key of `methods`,
and every value of `methods` is the index of a dispatchable method. -/
theorem registerHandler_records (qHash : QString → Nat) (self : ClassHandlerManager)
    (handler : ClassHandler) (hnew : QHash.contains self.handlers handler.objectName = false)
    (hsafe : ∀ entry ∈ handler.scanned, entry.2.readsOutOfRange = false)
    (hany : handler.scanned.any (fun entry => entry.2.isDispatchable) = true) :
    ∃ after descriptor, registerHandler qHash self handler = some after ∧
      QHash.find? after.handlers handler.objectName = some (some descriptor) ∧
      descriptor.methodNames
        = (handler.scanned.filter (fun entry => entry.2.isDispatchable)).map
            (fun entry => entry.2.name) ∧
      (∀ entry ∈ handler.scanned, entry.2.isDispatchable = true →
        QHash.contains descriptor.methods (registerHash qHash entry.2) = true) ∧
      (∀ parameterHash methodIndex,
        QHash.find? descriptor.methods parameterHash = some methodIndex →
        ∃ entry ∈ handler.scanned, entry.2.isDispatchable = true ∧
          (entry.1 : Int) = methodIndex ∧ registerHash qHash entry.2 = parameterHash) := by
  obtain ⟨after, hafter, hsome, _⟩ := registerHandler_fresh_spec qHash self handler hnew hsafe
  refine ⟨after, _, hafter, (hsome hany).1, ?_, ?_, ?_⟩
  · rw [scanDescriptor_methodNames]; simp [PluginDescriptor.new]
  · intro entry hmem hdisp
    exact scanDescriptor_methods_complete qHash handler handler.scanned _ entry hmem hdisp
  · intro parameterHash methodIndex hfind
    rcases scanDescriptor_methods_sound qHash handler handler.scanned PluginDescriptor.new _ _
      hfind with h | h
    · simp [PluginDescriptor.new, QHash.find?] at h
    · exact h

theorem registerHash_congr (qHash : QString → Nat) (a b : QMetaMethod)
    (hname : a.name = b.name) (hparams : a.parameterNames.Perm b.parameterNames) :
    registerHash qHash a = registerHash qHash b := by
  rw [registerHash_eq, registerHash_eq, hname, (hparams.map qHash).sum_eq]

/-- Exchanging the name of an operation with one of its parameter names keeps the hash. -/
theorem registerHash_exchange (qHash : QString → Nat) (a b : QMetaMethod)
    (front back : List QString)
    (ha : a.parameterNames = front ++ b.name :: back)
    (hb : b.parameterNames = front ++ a.name :: back) :
    registerHash qHash a = registerHash qHash b := by
  rw [registerHash_eq, registerHash_eq, ha, hb]
  simp only [List.map_append, List.map_cons, List.sum_append, List.sum_cons]
  congr 1
  omega

theorem fillArguments_isSome_congr (canConvert canConvert' : Nat → Bool) (method : QMetaMethod)
    (a b : QHash QString QString) :
    ∀ (fuel argumentIndex : Nat)
      (tables tables' : List QGenericArgument × List (Option QVariant)),
      tables.1.length = tables.2.length →
      tables.1.length = tables'.1.length → tables.2.length = tables'.2.length →
      (fillArguments canConvert method a fuel argumentIndex tables).isSome
        = (fillArguments canConvert' method b fuel argumentIndex tables').isSome := by
  intro fuel
  induction fuel with
  | zero =>
    intro i tables tables' _ _ _
    simp only [fillArguments]
    split <;> rfl
  | succ fuel ih =>
    intro i tables tables' h0 h1 h2
    simp only [fillArguments]
    split
    · split
      · rfl
      · rename_i parameterName methodType _
        by_cases hv : i < tables.2.length
        · have hv' : i < tables'.2.length := by omega
          by_cases ht : i < tables.1.length
          · have ht' : i < tables'.1.length := by omega
            simp only [writeSlot, hv, hv', ht, ht', if_true, List.length_set]
            by_cases hc : canConvert methodType = true <;>
              by_cases hc' : canConvert' methodType = true <;>
              simp only [hc, hc', if_true, if_false, Bool.false_eq_true] <;>
              apply ih <;> simp only [List.length_set] <;> omega
          · omega
        · have hv' : ¬ i < tables'.2.length := by omega
          simp [writeSlot, hv, hv']
    · rfl

/-- The flag `processRequest` returns, and whether it returns at all, depend on
the keys of the argument map only: not on the values and not on the types the
arguments can be converted to. -/
theorem processRequest_flag_independent (qHash : QString → Nat)
    (canConvert canConvert' : Nat → Bool) (self : ClassHandlerManager)
    (className methodName : QString) (a b : QHash QString QString)
    (hkeys : (QHash.keys a).Perm (QHash.keys b)) :
    (processRequest qHash canConvert self className methodName a).map Prod.fst
      = (processRequest qHash canConvert' self className methodName b).map Prod.fst := by
  simp only [processRequest, selectMethod_congr qHash self className methodName a b hkeys]
  cases selectMethod qHash self className methodName b with
  | none => rfl
  | some methodIndex =>
    simp only []
    split
    · cases (QHash.index self.handlers className none).1 with
      | none => rfl
      | some descriptor =>
        dsimp only
        cases descriptor.handler with
        | none => rfl
        | some handler =>
          dsimp only
          have hiff := fillArguments_isSome_congr canConvert canConvert'
            (handler.method methodIndex) a b (handler.method methodIndex).parameterCount 2
            initialTables initialTables rfl rfl rfl
          cases h1 : fillArguments canConvert (handler.method methodIndex) a
              (handler.method methodIndex).parameterCount 2 initialTables with
          | none =>
            rw [h1] at hiff
            cases h2 : fillArguments canConvert' (handler.method methodIndex) b
                (handler.method methodIndex).parameterCount 2 initialTables with
            | none => rfl
            | some t => rw [h2] at hiff; simp at hiff
          | some t =>
            rw [h1] at hiff
            cases h2 : fillArguments canConvert' (handler.method methodIndex) b
                (handler.method methodIndex).parameterCount 2 initialTables with
            | none => rw [h2] at hiff; simp at hiff
            | some t' => rfl
    · rfl

/-- For a registered handler none of whose dispatchable operations has more
than ten parameters, `processRequest` returns `true` exactly when
`selectMethod` returns a non-negative index, and then `QMetaMethod::invoke` is
called on the method of that index; otherwise nothing changes. -/
theorem processRequest_registered (qHash : QString → Nat) (canConvert : Nat → Bool)
    (self : ClassHandlerManager) (handler : ClassHandler) (methodName : QString)
    (arguments : QHash QString QString) (hreg : Registered qHash self handler)
    (hcap : ∀ entry ∈ handler.scanned, entry.2.isDispatchable = true →
      entry.2.parameters.length ≤ 10) :
    ∃ methodIndex after,
      selectMethod qHash self handler.objectName methodName arguments = some methodIndex ∧
      processRequest qHash canConvert self handler.objectName methodName arguments
        = some (decide (methodIndex > -1), after) ∧
      (methodIndex > -1 → ∃ argumentTable,
        after = { self with
          calls := self.calls ++ [Call.invoke handler methodIndex argumentTable] }) ∧
      (¬ methodIndex > -1 → after = self) := by
  obtain ⟨hany, hentry⟩ := hreg.entry
  have hhandler := scanDescriptor_handler qHash handler handler.scanned PluginDescriptor.new
    (Or.inr hany)
  cases hsel : selectMethod qHash self handler.objectName methodName arguments with
  | none =>
    simp only [selectMethod, hentry] at hsel
    split at hsel <;> simp at hsel
  | some methodIndex =>
    by_cases hpos : methodIndex > -1
    · obtain ⟨entry, hmem, hdisp, hidx, hmethod, hhash⟩ :=
        selectMethod_registered qHash self handler methodName arguments methodIndex hreg hsel
          hpos
      obtain ⟨d, hd, hval⟩ := selectMethod_some qHash self handler.objectName methodName
        arguments methodIndex hsel
      rw [hentry] at hd
      have hd' := Option.some.inj (Option.some.inj hd)
      subst hd'
      have hfind : QHash.find?
          (scanDescriptor qHash handler handler.scanned PluginDescriptor.new).methods
          (selectHash qHash methodName (QHash.keys arguments)) = some (entry.1 : Int) := by
        by_cases hc : QHash.contains
            (scanDescriptor qHash handler handler.scanned PluginDescriptor.new).methods
            (selectHash qHash methodName (QHash.keys arguments)) = true
        · obtain ⟨found, hfound⟩ := Option.isSome_iff_exists.mp hc
          rw [if_pos hc] at hval
          simp only [QHash.value, hfound, Option.getD_some] at hval
          rw [hfound, ← hval, hidx]
        · rw [if_neg hc] at hval
          omega
      have hproc := processRequest_hit qHash canConvert self handler.objectName methodName
        arguments _ handler entry.1 hentry hhandler hfind
        (by rw [method_of_mem_scanned handler entry hmem]; exact hcap entry hmem hdisp)
      subst hidx
      have hres : ∃ after argumentTable,
          processRequest qHash canConvert self handler.objectName methodName arguments
            = some (true, after) ∧
          after = { self with
            calls := self.calls ++ [Call.invoke handler (entry.1 : Int) argumentTable] } :=
        ⟨_, _, hproc, rfl⟩
      obtain ⟨after, argumentTable, h1, h2⟩ := hres
      exact ⟨_, after, rfl, by rw [h1]; simp only [hpos, decide_True],
        fun _ => ⟨argumentTable, h2⟩, fun hn => absurd hpos hn⟩
    · refine ⟨methodIndex, self, rfl, ?_, fun h => absurd h hpos, fun _ => rfl⟩
      simp [processRequest, hsel, hpos]

/-! ## The claims -/

/-- C1, as amended: without a context, for a handler registered under a class
identifier `C` that is a non-empty separator-free segment, with a public slot
`m(request, response, p₁ … pₙ)`, `n ≤ 8`, whose name and pairwise distinct
parameter names are such segments, none of the handler's dispatchable
operations having more than ten parameters, and for all such segments
`v₁ … vₙ`: `handleRequest` on `/C/m/p₁/v₁/…/pₙ/vₙ` returns `true` and leaves
the registry as it was; when the slot is the handler's only dispatchable
operation, the calls made are `setContext` and one `invoke` of that slot in
which the slot of `pᵢ` holds `vᵢ` converted to the declared type of `pᵢ`, or
stays empty when a string does not convert to that type. -/
theorem handleRequest_registered_slot (qHash : QString → Nat) (canConvert : Nat → Bool)
    (self : ClassHandlerManager) (handler : ClassHandler) (methodIndex : Nat)
    (slot : QMetaMethod) (requestId responseId : Nat) (extra : List (QString × Nat))
    (values : List QString)
    (hctx : self.m_context = "")
    (hreg : Registered qHash self handler)
    (hoff : handler.methodOffset ≤ methodIndex)
    (hslot : handler.methods.get? methodIndex = some slot)
    (hpublic : slot.methodType = MethodType.Slot ∧ slot.access = Access.Public)
    (hparams : slot.parameters = ("request", requestId) :: ("response", responseId) :: extra)
    (hcount : extra.length ≤ 8)
    (hvalues : values.length = extra.length)
    (hdistinct : (extra.map Prod.fst).Nodup)
    (hclass : isSegment handler.objectName = true)
    (hname : isSegment slot.name = true)
    (hkeys : ∀ p ∈ extra, isSegment p.1 = true)
    (hvals : ∀ value ∈ values, isSegment value = true)
    (hcap : ∀ entry ∈ handler.scanned, entry.2.isDispatchable = true →
      entry.2.parameters.length ≤ 10) :
    ∃ after,
      handleRequest qHash canConvert self
        (pathOf (handler.objectName :: slot.name ::
          segmentsOf (List.zip (extra.map Prod.fst) values))) = some (true, after) ∧
      after.handlers = self.handlers ∧
      ((∀ entry ∈ handler.scanned, entry.2.isDispatchable = true → entry.1 = methodIndex) →
        after.calls = self.calls ++ [Call.setContext "", Call.invoke handler methodIndex
          (QGenericArgument.request :: QGenericArgument.response ::
            (List.zipWith (fun p value => marshal canConvert [(p.1, value)] p) extra values
              ++ List.replicate (8 - extra.length) QGenericArgument.empty))]) :=
  handleRequest_dispatch qHash canConvert self handler methodIndex slot requestId responseId
    extra values hctx hreg hoff hslot hpublic hparams hcount hvalues hdistinct hclass hname
    hkeys hvals hcap

/-- C1 at the scenario of the specification: `Widgets` with
`get(request, response, id)`, registered in a manager without a context; the
path `/Widgets/get/id/42` is handled and `get` is invoked with `id = "42"`. -/
theorem handleRequest_registered_slot_witness :
    registerHandler qHash31 (emptyManager "") widgets = some registeredWidgets ∧
    pathOf ("Widgets" :: "get" :: segmentsOf (List.zip ["id"] ["42"])) = "/Widgets/get/id/42" ∧
    ∃ after,
      handleRequest qHash31 canConvertFromString registeredWidgets
        (pathOf ("Widgets" :: "get" :: segmentsOf (List.zip ["id"] ["42"]))) = some (true, after) ∧
      after.handlers = registeredWidgets.handlers ∧
      after.calls = [Call.init widgets, Call.setContext "", Call.invoke widgets 1
        (QGenericArgument.request :: QGenericArgument.response ::
          QGenericArgument.ofVariant { typeId := QMetaType.QString, source := "42" } ::
          List.replicate 7 QGenericArgument.empty)] := by
  refine ⟨by decide, by decide, ?_⟩
  obtain ⟨after, h1, h2, h3⟩ := handleRequest_registered_slot qHash31 canConvertFromString
    registeredWidgets widgets 1 getSlot requestType responseType [("id", QMetaType.QString)]
    ["42"] rfl ⟨emptyManager "", registeredWidgets, by decide, by decide, by decide, rfl⟩
    (by decide) (by decide) (by decide) rfl (by decide) rfl (by decide) (by decide) (by decide)
    (by decide) (by decide) (by decide)
  exact ⟨after, h1, h2, h3 (by decide)⟩

/-- C1 fails as stated: a handler that never set its `objectName` is registered
under the identifier `""` and exposes the public slot `get(request, response,
id)`; the path `/C/get/id/42` for that identifier is `//get/id/42`, whose
segments are `get`, `id`, `42`, and the request is unhandled. -/
theorem handleRequest_unnamed_class_unhandled :
    registerHandler qHash31 (emptyManager "") unnamedWidgets = some registeredUnnamed ∧
    Registered qHash31 registeredUnnamed unnamedWidgets ∧
    registeredUnnamed.m_context = "" ∧
    unnamedWidgets.methods.get? 1 = some getSlot ∧
    pathOf [unnamedWidgets.objectName, "get", "id", "42"] = "//get/id/42" ∧
    handleRequest qHash31 canConvertFromString registeredUnnamed "//get/id/42"
      = some (false, registeredUnnamed.afterSetContext) :=
  ⟨by decide, ⟨emptyManager "", registeredUnnamed, by decide, by decide, by decide, rfl⟩,
    rfl, rfl, by decide, by decide⟩

/-- C2, as amended: for a registered class (and any method name), when the
signature hash computed from the method name and the argument keys of the path
is not a key of the class's `methods` (no recorded operation has that hash),
`handleRequest` returns `false`, the registry is untouched and no operation is
invoked. -/
theorem handleRequest_signature_miss (qHash : QString → Nat) (canConvert : Nat → Bool)
    (self : ClassHandlerManager) (url className methodName : QString) (rest : List QString)
    (descriptor : PluginDescriptor)
    (hs : split url '/' = self.contextSegments ++ className :: methodName :: rest)
    (hlen : rest.length ≤ 16)
    (hclass : QHash.find? self.handlers className = some (some descriptor))
    (hmiss : QHash.contains descriptor.methods
      (selectHash qHash methodName (QHash.keys (insertPairs rest []))) = false) :
    ∃ self', handleRequest qHash canConvert self url = some (false, self') ∧
      self'.handlers = self.handlers ∧ self'.invocations = self.invocations := by
  refine ⟨self.afterSetContext, ?_, rfl, invocations_afterSetContext self⟩
  rw [handleRequest_accepted qHash canConvert self url className methodName rest hs hlen]
  simp only [hclass]
  split
  · split
    · exact processRequest_miss qHash canConvert self.afterSetContext className methodName _
        descriptor hclass hmiss
    · rfl
  · rfl

/-- C2 at the scenario of the specification: `Widgets` with only
`get(request, response, id)`; the path `/Widgets/get/id/42/extra/1` is a miss. -/
theorem handleRequest_signature_miss_witness :
    ∃ self', handleRequest qHash31 canConvertFromString registeredWidgets
        "/Widgets/get/id/42/extra/1" = some (false, self') ∧
      self'.handlers = registeredWidgets.handlers ∧
      self'.invocations = registeredWidgets.invocations :=
  handleRequest_signature_miss qHash31 canConvertFromString registeredWidgets
    "/Widgets/get/id/42/extra/1" "Widgets" "get" ["id", "42", "extra", "1"]
    widgetsDescriptor (by decide) (by decide) (by decide) (by decide)

/-- C2 fails as stated: `Widgets` has the slots `id(request, response)` and
`get(request, response, id)`; on `/Widgets/id/get/1` the method name `id` is
known and the only argument key, `get`, is not the parameter set of the one
operation named `id`, yet the request is handled: the sum of hashes equals the
signature hash of `get(request, response, id)`, which is invoked (method index
2) with an empty `id`. -/
theorem handleRequest_foreign_keys_dispatch :
    registerHandler qHash31 (emptyManager "") widgetsWithId = some registeredWithId ∧
    (QHash.find? registeredWithId.handlers "Widgets").join.map
      (fun descriptor => descriptor.methodNames) = some ["id", "get"] ∧
    (handleRequest qHash31 canConvertFromString registeredWithId "/Widgets/id/get/1").map
      (fun result => (result.1, result.2.invocations))
      = some (true, [Call.invoke widgetsWithId 2
          (QGenericArgument.request :: QGenericArgument.response ::
            QGenericArgument.ofVariant { typeId := QMetaType.QString, source := "" } ::
            List.replicate 7 QGenericArgument.empty)]) :=
  ⟨by decide, by decide, by decide⟩

/-- C3: a path with fewer than `minimumPathComponents` segments (2 without a
context, 3 with one) or with more than `minimumPathComponents + 16` segments is
unhandled, and the manager, its call log included, is left as it was: no
operation is invoked. -/
theorem handleRequest_rejects_length (qHash : QString → Nat) (canConvert : Nat → Bool)
    (self : ClassHandlerManager) (url : QString)
    (hlen : (split url '/').length < self.minimumPathComponents ∨
      self.minimumPathComponents + 16 < (split url '/').length) :
    handleRequest qHash canConvert self url = some (false, self) :=
  handleRequest_of_length qHash canConvert self url hlen

/-- C3 at `minimum - 1` segments without a context and at `minimum + 17`
segments with the context `api`. -/
theorem handleRequest_rejects_length_witness :
    (split "/Widgets" '/').length = 1 ∧
    handleRequest qHash31 canConvertFromString registeredWidgets "/Widgets"
      = some (false, registeredWidgets) ∧
    (split "/api/Widgets/get/a/1/b/2/c/3/d/4/e/5/f/6/g/7/h/8/i" '/').length = 20 ∧
    handleRequest qHash31 canConvertFromString apiWidgets
      "/api/Widgets/get/a/1/b/2/c/3/d/4/e/5/f/6/g/7/h/8/i" = some (false, apiWidgets) :=
  ⟨by decide,
    handleRequest_rejects_length qHash31 canConvertFromString registeredWidgets "/Widgets"
      (Or.inl (by decide)),
    by decide,
    handleRequest_rejects_length qHash31 canConvertFromString apiWidgets
      "/api/Widgets/get/a/1/b/2/c/3/d/4/e/5/f/6/g/7/h/8/i" (Or.inr (by decide))⟩

/-- C4: when the number of segments that remain after the optional context, the
class and the method is odd, the request is unhandled: the result is `false`,
the registry is untouched and no operation is invoked (the state is the one
before the call or the one after `setContext`), so no argument map is built
from the odd remainder. -/
theorem handleRequest_rejects_odd (qHash : QString → Nat) (canConvert : Nat → Bool)
    (self : ClassHandlerManager) (url : QString)
    (hodd : ((split url '/').length - self.minimumPathComponents) % 2 = 1) :
    ∃ self', handleRequest qHash canConvert self url = some (false, self') ∧
      (self' = self ∨ self' = self.afterSetContext) ∧
      self'.handlers = self.handlers ∧ self'.invocations = self.invocations := by
  rcases handleRequest_of_odd qHash canConvert self url hodd with h | h
  · exact ⟨self, h, Or.inl rfl, rfl, rfl⟩
  · exact ⟨self.afterSetContext, h, Or.inr rfl, rfl, invocations_afterSetContext self⟩

/-- C4 at the path `/Widgets/get/id`, with one segment after class and method. -/
theorem handleRequest_rejects_odd_witness :
    ∃ self', handleRequest qHash31 canConvertFromString registeredWidgets "/Widgets/get/id"
        = some (false, self') ∧
      (self' = registeredWidgets ∨ self' = registeredWidgets.afterSetContext) ∧
      self'.handlers = registeredWidgets.handlers ∧
      self'.invocations = registeredWidgets.invocations :=
  handleRequest_rejects_odd qHash31 canConvertFromString registeredWidgets "/Widgets/get/id"
    (by decide)

/-- C5: with a non-empty context configured, a path whose first segment is not
the context is unhandled and the manager is left as it was, whatever handlers
are registered. -/
theorem handleRequest_rejects_foreign_context (qHash : QString → Nat) (canConvert : Nat → Bool)
    (self : ClassHandlerManager) (url : QString)
    (hctx : self.m_context ≠ "")
    (hfirst : (split url '/').head? ≠ some self.m_context) :
    handleRequest qHash canConvert self url = some (false, self) :=
  handleRequest_of_foreign_context qHash canConvert self url hctx hfirst

/-- C5 at the scenario of the specification: context `api`, path `/other/Widgets/get/id/42`. -/
theorem handleRequest_rejects_foreign_context_witness :
    handleRequest qHash31 canConvertFromString apiWidgets "/other/Widgets/get/id/42"
      = some (false, apiWidgets) :=
  handleRequest_rejects_foreign_context qHash31 canConvertFromString apiWidgets
    "/other/Widgets/get/id/42" (by decide) (by decide)

/-- C6: on a path that passes the length and context checks (with an even or an
odd number of further segments), when the class segment is not a key of the
registry, or it is and the method segment is not in the class's `methodNames`,
`handleRequest` returns `false` (it does not fail), with the registry untouched
and no operation invoked. -/
theorem handleRequest_unknown_class_or_method (qHash : QString → Nat) (canConvert : Nat → Bool)
    (self : ClassHandlerManager) (url className methodName : QString) (rest : List QString)
    (hs : split url '/' = self.contextSegments ++ className :: methodName :: rest)
    (hlen : rest.length ≤ 16)
    (hmiss : QHash.contains self.handlers className = false ∨
      ∃ descriptor, QHash.find? self.handlers className = some (some descriptor) ∧
        methodName ∉ descriptor.methodNames) :
    ∃ self', handleRequest qHash canConvert self url = some (false, self') ∧
      self'.handlers = self.handlers ∧ self'.invocations = self.invocations :=
  ⟨self.afterSetContext,
    handleRequest_of_unknown qHash canConvert self url className methodName rest hs hlen hmiss,
    rfl, invocations_afterSetContext self⟩

/-- C6 at an unknown class (`/Gadgets/get/id/42`) and at an unknown method of a
known class (`/Widgets/put/id/42`). -/
theorem handleRequest_unknown_class_or_method_witness :
    (∃ self', handleRequest qHash31 canConvertFromString registeredWidgets "/Gadgets/get/id/42"
        = some (false, self') ∧
      self'.handlers = registeredWidgets.handlers ∧
      self'.invocations = registeredWidgets.invocations) ∧
    (∃ self', handleRequest qHash31 canConvertFromString registeredWidgets "/Widgets/put/id/42"
        = some (false, self') ∧
      self'.handlers = registeredWidgets.handlers ∧
      self'.invocations = registeredWidgets.invocations) :=
  ⟨handleRequest_unknown_class_or_method qHash31 canConvertFromString registeredWidgets
      "/Gadgets/get/id/42" "Gadgets" "get" ["id", "42"] (by decide) (by decide)
      (Or.inl (by decide)),
    handleRequest_unknown_class_or_method qHash31 canConvertFromString registeredWidgets
      "/Widgets/put/id/42" "Widgets" "put" ["id", "42"] (by decide) (by decide)
      (Or.inr ⟨widgetsDescriptor, by decide, by decide⟩)⟩

/-- C7: the signature hash of `selectMethod` is the same for every enumeration
order of the argument keys, and it is the hash `registerHandler` computes for
an operation of that name whose parameter names are `request`, `response` and
then those keys in any declaration order. -/
theorem selectHash_order_independent (qHash : QString → Nat) (methodName : QString)
    (keys keys' declared : List QString) (method : QMetaMethod)
    (hkeys : keys'.Perm keys)
    (hname : method.name = methodName)
    (hparams : method.parameterNames = "request" :: "response" :: declared)
    (hdeclared : declared.Perm keys) :
    selectHash qHash methodName keys' = selectHash qHash methodName keys ∧
    registerHash qHash method = selectHash qHash methodName keys := by
  constructor
  · rw [selectHash_eq, selectHash_eq, (hkeys.map qHash).sum_eq]
  · rw [selectHash_eq, registerHash_eq, hparams, hname, ← (hdeclared.map qHash).sum_eq]
    simp only [List.map_cons, List.sum_cons]
    congr 1
    omega

/-- C7 at the slot `move(request, response, x, y)` and the keys `y`, `x`. -/
theorem selectHash_order_independent_witness :
    selectHash qHash31 "move" ["x", "y"] = selectHash qHash31 "move" ["y", "x"] ∧
    registerHash qHash31 moveSlot = selectHash qHash31 "move" ["y", "x"] :=
  selectHash_order_independent qHash31 "move" ["y", "x"] ["x", "y"] ["x", "y"] moveSlot
    (List.Perm.swap _ _ _) rfl rfl (List.Perm.swap _ _ _)

/-- C8: on an accepted path `[context/]class/method/k1/v1/k2/v2` with
`k1 ≠ k2`, the loop of `handleRequest` builds the argument map with exactly the
entries `k1 ↦ v1` and `k2 ↦ v2`, and that map is what `processRequest`
receives; the path with the two pairs swapped builds a map with the same
entries, selects the same method and has the same result (handled flag and
state, calls included). -/
theorem handleRequest_pair_order (qHash : QString → Nat) (canConvert : Nat → Bool)
    (self : ClassHandlerManager) (url swapped className methodName k1 v1 k2 v2 : QString)
    (descriptor : PluginDescriptor)
    (hurl : split url '/' = self.contextSegments ++ [className, methodName, k1, v1, k2, v2])
    (hswapped :
      split swapped '/' = self.contextSegments ++ [className, methodName, k2, v2, k1, v1])
    (hne : k1 ≠ k2)
    (hclass : QHash.find? self.handlers className = some (some descriptor))
    (hmethod : methodName ∈ descriptor.methodNames) :
    buildArguments (split url '/') (split url '/').length (self.contextSegments.length + 2) []
      = some [(k1, v1), (k2, v2)] ∧
    buildArguments (split swapped '/') (split swapped '/').length
      (self.contextSegments.length + 2) [] = some [(k2, v2), (k1, v1)] ∧
    handleRequest qHash canConvert self url
      = processRequest qHash canConvert self.afterSetContext className methodName
          [(k1, v1), (k2, v2)] ∧
    handleRequest qHash canConvert self swapped
      = processRequest qHash canConvert self.afterSetContext className methodName
          [(k2, v2), (k1, v1)] ∧
    (∀ key, QHash.find? [(k1, v1), (k2, v2)] key = QHash.find? [(k2, v2), (k1, v1)] key) ∧
    selectMethod qHash self.afterSetContext className methodName [(k1, v1), (k2, v2)]
      = selectMethod qHash self.afterSetContext className methodName [(k2, v2), (k1, v1)] ∧
    handleRequest qHash canConvert self url = handleRequest qHash canConvert self swapped := by
  have hne' : k2 ≠ k1 := fun h => hne h.symm
  have hfind : ∀ key, QHash.find? [(k1, v1), (k2, v2)] key
      = QHash.find? [(k2, v2), (k1, v1)] key := by
    intro key
    by_cases h1 : k1 = key
    · subst h1; simp [QHash.find?, hne']
    · by_cases h2 : k2 = key
      · subst h2; simp [QHash.find?, hne]
      · simp [QHash.find?, h1, h2]
  have hkeys : (QHash.keys [(k1, v1), (k2, v2)]).Perm (QHash.keys [(k2, v2), (k1, v1)]) := by
    simp only [QHash.keys, List.map_cons, List.map_nil]
    exact List.Perm.swap _ _ _
  have hp1 : insertPairs [k1, v1, k2, v2] [] = [(k1, v1), (k2, v2)] := by
    simp [insertPairs, QHash.insert, hne]
  have hp2 : insertPairs [k2, v2, k1, v1] [] = [(k2, v2), (k1, v1)] := by
    simp [insertPairs, QHash.insert, hne']
  have hb1 := buildArguments_append [] (split url '/').length
    (self.contextSegments ++ [className, methodName]) [k1, v1, k2, v2] [] (by simp)
    (by rw [hurl]; simp; omega)
  have hb2 := buildArguments_append [] (split swapped '/').length
    (self.contextSegments ++ [className, methodName]) [k2, v2, k1, v1] [] (by simp)
    (by rw [hswapped]; simp; omega)
  have hh1 := handleRequest_accepted qHash canConvert self url className methodName
    [k1, v1, k2, v2] hurl (by simp)
  have hh2 := handleRequest_accepted qHash canConvert self swapped className methodName
    [k2, v2, k1, v1] hswapped (by simp)
  have hm : descriptor.methodNames.contains methodName = true := by simpa using hmethod
  simp only [hclass, hm, hp1, hp2, List.length_cons, List.length_nil, if_true] at hh1 hh2
  have hpr := processRequest_congr qHash canConvert self.afterSetContext className methodName
    [(k1, v1), (k2, v2)] [(k2, v2), (k1, v1)] hkeys
    (fun key => by simp only [QHash.value, hfind])
  refine ⟨?_, ?_, ?_, ?_, hfind, ?_, ?_⟩
  · rw [hp1] at hb1
    simpa [hurl] using hb1
  · rw [hp2] at hb2
    simpa [hswapped] using hb2
  · simpa using hh1
  · simpa using hh2
  · exact selectMethod_congr qHash _ className methodName _ _ hkeys
  · rw [show handleRequest qHash canConvert self url = _ from by simpa using hh1,
      show handleRequest qHash canConvert self swapped = _ from by simpa using hh2, hpr]

/-- C8 at the context `api` and the paths `/api/Points/move/x/1/y/2` and
`/api/Points/move/y/2/x/1`: both are handled, by the same invocation. -/
theorem handleRequest_pair_order_witness :
    handleRequest qHash31 canConvertFromString apiPoints "/api/Points/move/x/1/y/2"
      = handleRequest qHash31 canConvertFromString apiPoints "/api/Points/move/y/2/x/1" ∧
    (handleRequest qHash31 canConvertFromString apiPoints "/api/Points/move/x/1/y/2").map
      Prod.fst = some true :=
  ⟨(handleRequest_pair_order qHash31 canConvertFromString apiPoints
      "/api/Points/move/x/1/y/2" "/api/Points/move/y/2/x/1" "Points" "move" "x" "1" "y" "2"
      pointsDescriptor (by decide) (by decide) (by decide) (by decide) (by decide)).2.2.2.2.2.2,
    by decide⟩

/-- C9: when the handler's `objectName` is already a key of the registry,
`registerHandler` returns the manager unchanged (every entry, and the call log:
`init` is not invoked); and registering a handler twice in a row gives the
state, call log included, that registering it once gives. -/
theorem registerHandler_idempotent (qHash : QString → Nat) (self : ClassHandlerManager)
    (handler : ClassHandler) :
    (QHash.contains self.handlers handler.objectName = true →
      registerHandler qHash self handler = some self) ∧
    (registerHandler qHash self handler).bind (fun once => registerHandler qHash once handler)
      = registerHandler qHash self handler :=
  ⟨registerHandler_of_registered qHash self handler, registerHandler_twice qHash self handler⟩

/-- C9 at the handler `widgets`, registered a second time. -/
theorem registerHandler_idempotent_witness :
    QHash.contains registeredWidgets.handlers widgets.objectName = true ∧
    registerHandler qHash31 registeredWidgets widgets = some registeredWidgets :=
  ⟨by decide, (registerHandler_idempotent qHash31 registeredWidgets widgets).1 (by decide)⟩

/-- C10, evaluated at a handler with the dispatchable slot `get(request,
response, id)` followed by the public slot `ping()`: the scan reads
`parameterNames[0]` of `ping` out of range and registration does not complete,
whatever the hash function. -/
theorem registerHandler_widgetsWithPing :
    ∀ qHash : QString → Nat, registerHandler qHash (emptyManager "") widgetsWithPing = none := by
  intro qHash
  apply registerHandler_fails
  · rfl
  · exact ⟨(2, pingSlot), by decide, by decide⟩

/-- C11, evaluated at two handlers with a short public slot, for every hash
function: for `Pinger`, whose only slot `ping()` declares no parameter, the
scan reads `parameterNames[0]` out of range; for `Widgets` with
`get(request, response, id)` and `reset(request)`, it reads `parameterNames[1]`
of `reset` out of range. Registration does not complete in either case, so
neither `methodNames` nor `methods` is what the claim describes. -/
theorem registerHandler_short_slot :
    (∀ qHash : QString → Nat, registerHandler qHash (emptyManager "") pingOnly = none) ∧
    (∀ qHash : QString → Nat,
      registerHandler qHash (emptyManager "") widgetsWithReset = none) :=
  ⟨fun qHash => registerHandler_fails qHash (emptyManager "") pingOnly rfl
      ⟨(1, pingSlot), by decide, by decide⟩,
    fun qHash => registerHandler_fails qHash (emptyManager "") widgetsWithReset rfl
      ⟨(2, resetSlot), by decide, by decide⟩⟩

/-- C12, as amended: the signature hash of `registerHandler` depends only on the
operation name and the multiset of parameter names, and it is unchanged when
the name is exchanged with one of the parameter names, so it does not identify
the combination; two dispatchable operations of a handler whose hashes differ
each have an entry of the `methods` map under their own hash, and the index
stored there is that of a dispatchable operation with that hash. -/
theorem registerHash_entries (qHash : QString → Nat) (handler : ClassHandler)
    (first second : Nat × QMetaMethod)
    (hfirst : first ∈ handler.scanned) (hsecond : second ∈ handler.scanned)
    (hd1 : first.2.isDispatchable = true) (hd2 : second.2.isDispatchable = true)
    (hne : registerHash qHash first.2 ≠ registerHash qHash second.2) :
    (∀ a b : QMetaMethod, a.name = b.name → a.parameterNames.Perm b.parameterNames →
      registerHash qHash a = registerHash qHash b) ∧
    (∀ (a b : QMetaMethod) (front back : List QString),
      a.parameterNames = front ++ b.name :: back →
      b.parameterNames = front ++ a.name :: back →
      registerHash qHash a = registerHash qHash b) ∧
    ∃ i j : Int,
      QHash.find? (scanDescriptor qHash handler handler.scanned PluginDescriptor.new).methods
        (registerHash qHash first.2) = some i ∧
      QHash.find? (scanDescriptor qHash handler handler.scanned PluginDescriptor.new).methods
        (registerHash qHash second.2) = some j ∧
      i ≠ j ∧
      registerHash qHash (handler.method i) = registerHash qHash first.2 ∧
      registerHash qHash (handler.method j) = registerHash qHash second.2 := by
  refine ⟨registerHash_congr qHash, registerHash_exchange qHash, ?_⟩
  obtain ⟨i, hi⟩ := Option.isSome_iff_exists.mp
    (scanDescriptor_methods_complete qHash handler handler.scanned PluginDescriptor.new
      first hfirst hd1)
  obtain ⟨j, hj⟩ := Option.isSome_iff_exists.mp
    (scanDescriptor_methods_complete qHash handler handler.scanned PluginDescriptor.new
      second hsecond hd2)
  have hsound : ∀ (parameterHash : Nat) (k : Int),
      QHash.find? (scanDescriptor qHash handler handler.scanned PluginDescriptor.new).methods
        parameterHash = some k →
      registerHash qHash (handler.method k) = parameterHash := by
    intro parameterHash k hk
    rcases scanDescriptor_methods_sound qHash handler handler.scanned PluginDescriptor.new _ _
      hk with h | ⟨entry, hmem, _, hidx, hh⟩
    · simp [PluginDescriptor.new, QHash.find?] at h
    · rw [← hidx, method_of_mem_scanned handler entry hmem, hh]
  have h1 := hsound _ _ hi
  have h2 := hsound _ _ hj
  refine ⟨i, j, hi, hj, ?_, h1, h2⟩
  intro hij
  apply hne
  rw [← h1, ← h2, hij]

/-- C12 at the operations `id(request, response)` and `get(request, response,
id)` of `Widgets`, whose hashes differ under `qHash31`: each has its own entry. -/
theorem registerHash_entries_witness :
    registerHash qHash31 idSlot ≠ registerHash qHash31 getSlot ∧
    ∃ i j : Int,
      QHash.find?
        (scanDescriptor qHash31 widgetsWithId widgetsWithId.scanned PluginDescriptor.new).methods
        (registerHash qHash31 idSlot) = some i ∧
      QHash.find?
        (scanDescriptor qHash31 widgetsWithId widgetsWithId.scanned PluginDescriptor.new).methods
        (registerHash qHash31 getSlot) = some j ∧
      i ≠ j ∧
      registerHash qHash31 (widgetsWithId.method i) = registerHash qHash31 idSlot ∧
      registerHash qHash31 (widgetsWithId.method j) = registerHash qHash31 getSlot :=
  ⟨by decide,
    (registerHash_entries qHash31 widgetsWithId (1, idSlot) (2, getSlot) (by decide)
      (by decide) (by decide) (by decide) (by decide)).2.2⟩

/-- C12 fails as stated: `get(request, response, id)` and
`id(request, response, get)` are dispatchable and differ in name and in
parameter names, yet their signature hashes are equal, and the `methods` map of
a handler with both has the single entry of the one scanned last (index 2). -/
theorem registerHash_collision :
    getSlot.isDispatchable = true ∧ mirrorSlot.isDispatchable = true ∧
    getSlot.name ≠ mirrorSlot.name ∧
    getSlot.parameterNames ≠ mirrorSlot.parameterNames ∧
    registerHash qHash31 getSlot = registerHash qHash31 mirrorSlot ∧
    (scanDescriptor qHash31 mirrored mirrored.scanned PluginDescriptor.new).methods
      = [(registerHash qHash31 getSlot, 2)] ∧
    (scanDescriptor qHash31 mirrored mirrored.scanned PluginDescriptor.new).methodNames
      = ["get", "id"] :=
  ⟨by decide, by decide, by decide, by decide, by decide, by decide, by decide⟩

/-- C13, evaluated at the handler `Widgets` whose slot
`get(request, response, id, …)` has eight further unnamed parameters (hash of
the empty name: 0) and the request `/Widgets/get/id/42`: `selectMethod` returns
the non-negative index 1 of that slot, which has eleven parameters, and the
loop of `processRequest` writes slot 10 of the ten-slot arrays; neither
`processRequest` nor `handleRequest` returns `true`. -/
theorem processRequest_wide_slot :
    registerHandler qHash31 (emptyManager "") wideWidgets = some registeredWide ∧
    selectMethod qHash31 registeredWide "Widgets" "get" [("id", "42")] = some 1 ∧
    (wideWidgets.method 1).parameterCount = 11 ∧
    processRequest qHash31 canConvertFromString registeredWide "Widgets" "get" [("id", "42")]
      = none ∧
    handleRequest qHash31 canConvertFromString registeredWide "/Widgets/get/id/42" = none :=
  ⟨by decide, by decide, by decide, by decide, by decide⟩

/-- C14: on an accepted path (context when configured, class, method and an
even number of further segments) the loop of `handleRequest` returns an argument
map that sends every key to the value after the last occurrence of the key at
an even offset behind the method, with exactly one entry for each distinct such
key; that map is the one `processRequest` receives. -/
theorem buildArguments_last_wins (qHash : QString → Nat) (canConvert : Nat → Bool)
    (self : ClassHandlerManager) (url className methodName : QString) (rest : List QString)
    (hs : split url '/' = self.contextSegments ++ className :: methodName :: rest)
    (hlen : rest.length ≤ 16) (heven : rest.length % 2 = 0) :
    ∃ arguments,
      buildArguments (split url '/') (split url '/').length
        (self.contextSegments.length + 2) [] = some arguments ∧
      (∀ key, QHash.find? arguments key = specLastValue rest key) ∧
      (QHash.keys arguments).Nodup ∧
      (∀ key, key ∈ QHash.keys arguments ↔ key ∈ specKeys rest) ∧
      (∀ descriptor, QHash.find? self.handlers className = some (some descriptor) →
        methodName ∈ descriptor.methodNames →
        handleRequest qHash canConvert self url
          = processRequest qHash canConvert self.afterSetContext className methodName
              arguments) := by
  have hb := buildArguments_append [] (split url '/').length
    (self.contextSegments ++ [className, methodName]) rest [] heven
    (by rw [hs]; simp only [List.length_append, List.length_cons]; omega)
  have hspec := insertPairs_spec rest
  refine ⟨insertPairs rest [], ?_, hspec.1, hspec.2.1, hspec.2.2, ?_⟩
  · simpa [hs] using hb
  · intro descriptor hclass hmethod
    have hm : descriptor.methodNames.contains methodName = true := by simpa using hmethod
    rw [handleRequest_accepted qHash canConvert self url className methodName rest hs hlen]
    simp only [heven, if_true, hclass, hm]

/-- C14 at the context `api` and the path `/api/Points/move/x/1/y/2/x/3`: the
later `x` overwrites the earlier one. -/
theorem buildArguments_last_wins_witness :
    buildArguments (split "/api/Points/move/x/1/y/2/x/3" '/')
      (split "/api/Points/move/x/1/y/2/x/3" '/').length 3 [] = some [("x", "3"), ("y", "2")] ∧
    ∃ arguments,
      buildArguments (split "/api/Points/move/x/1/y/2/x/3" '/')
        (split "/api/Points/move/x/1/y/2/x/3" '/').length
        (apiPoints.contextSegments.length + 2) [] = some arguments ∧
      (∀ key, QHash.find? arguments key = specLastValue ["x", "1", "y", "2", "x", "3"] key) ∧
      (QHash.keys arguments).Nodup ∧
      (∀ key, key ∈ QHash.keys arguments ↔ key ∈ specKeys ["x", "1", "y", "2", "x", "3"]) ∧
      (∀ descriptor, QHash.find? apiPoints.handlers "Points" = some (some descriptor) →
        "move" ∈ descriptor.methodNames →
        handleRequest qHash31 canConvertFromString apiPoints "/api/Points/move/x/1/y/2/x/3"
          = processRequest qHash31 canConvertFromString apiPoints.afterSetContext "Points"
              "move" arguments) :=
  ⟨by decide,
    buildArguments_last_wins qHash31 canConvertFromString apiPoints
      "/api/Points/move/x/1/y/2/x/3" "Points" "move" ["x", "1", "y", "2", "x", "3"]
      (by decide) (by decide) (by decide)⟩

/-- C15: `addPluginLocation` appends an absent location at the end and leaves
the list unchanged when the location is present; the elements already in the
list keep their places, a duplicate-free list stays duplicate-free, and a
second call with the same location changes nothing. -/
theorem addPluginLocation_appends_once (pluginLocations : List QString) (location : QString) :
    (location ∉ pluginLocations →
      addPluginLocation pluginLocations location = pluginLocations ++ [location]) ∧
    (location ∈ pluginLocations →
      addPluginLocation pluginLocations location = pluginLocations) ∧
    (∃ added, addPluginLocation pluginLocations location = pluginLocations ++ added) ∧
    (pluginLocations.Nodup → (addPluginLocation pluginLocations location).Nodup) ∧
    addPluginLocation (addPluginLocation pluginLocations location) location
      = addPluginLocation pluginLocations location :=
  ⟨addPluginLocation_of_not_mem pluginLocations location,
    addPluginLocation_of_mem pluginLocations location,
    addPluginLocation_extends pluginLocations location,
    addPluginLocation_nodup pluginLocations location,
    addPluginLocation_twice pluginLocations location⟩

/-- C15 at the list `/home/u/.tufao`, `/opt/app` and the absent location `/srv/plugins`. -/
theorem addPluginLocation_appends_once_witness :
    addPluginLocation ["/home/u/.tufao", "/opt/app"] "/srv/plugins"
      = ["/home/u/.tufao", "/opt/app", "/srv/plugins"] ∧
    addPluginLocation ["/home/u/.tufao", "/opt/app"] "/opt/app"
      = ["/home/u/.tufao", "/opt/app"] ∧
    (addPluginLocation ["/home/u/.tufao", "/opt/app"] "/srv/plugins").Nodup :=
  ⟨(addPluginLocation_appends_once ["/home/u/.tufao", "/opt/app"] "/srv/plugins").1
      (by decide),
    (addPluginLocation_appends_once ["/home/u/.tufao", "/opt/app"] "/opt/app").2.1 (by decide),
    (addPluginLocation_appends_once ["/home/u/.tufao", "/opt/app"] "/srv/plugins").2.2.2.1
      (by decide)⟩

/-- C16, as amended: a construction that finds `pluginLocations` empty seeds the
platform defaults (on a platform other than Windows and macOS the directory
`homePath + "/.tufao"`, and the install location when `applicationDirPath` is a
directory), and the seeded locations stay in the list through every later
sequence of `addPluginLocation` calls and a further construction; a
construction after a non-empty sequence of `addPluginLocation` calls on the
empty list leaves the list as it is and seeds nothing. -/
theorem constructorLocations_seeds_when_empty (env : Environment)
    (earlier later : List QString) :
    (env.platform = Platform.other →
      env.homePath ++ "/.tufao" ∈ constructorLocations env []) ∧
    (env.isDir env.applicationDirPath = true →
      env.fileAbsolutePath env.applicationDirPath ∈ constructorLocations env []) ∧
    (∀ location ∈ constructorLocations env [],
      location ∈ constructorLocations env
        (addPluginLocations (constructorLocations env []) later)) ∧
    (earlier ≠ [] →
      constructorLocations env (addPluginLocations [] earlier)
        = addPluginLocations [] earlier) := by
  refine ⟨(constructorLocations_of_empty env).1, (constructorLocations_of_empty env).2, ?_, ?_⟩
  · intro location hmem
    obtain ⟨added, hadd⟩ := addPluginLocations_extends later (constructorLocations env [])
    have hne : addPluginLocations (constructorLocations env []) later ≠ [] := by
      rw [hadd]
      intro h
      rw [(List.append_eq_nil.mp h).1] at hmem
      simp at hmem
    rw [constructorLocations_of_nonempty env _ hne, hadd]
    exact List.mem_append_left _ hmem
  · intro hne
    cases earlier with
    | nil => exact absurd rfl hne
    | cons a rest =>
      exact constructorLocations_of_nonempty env _ (addPluginLocations_ne_nil a rest)

/-- C16 at the Linux example: the first construction on the empty list seeds
`/home/u/.tufao` and the install location, and they survive a later
`addPluginLocation` and construction; after `addPluginLocation("/srv/plugins")`
on the empty list, the construction leaves the list unchanged. -/
theorem constructorLocations_seeds_when_empty_witness :
    "/home/u/.tufao" ∈ constructorLocations linuxEnvironment [] ∧
    "/opt/app" ∈ constructorLocations linuxEnvironment [] ∧
    constructorLocations linuxEnvironment (addPluginLocations [] ["/srv/plugins"])
      = addPluginLocations [] ["/srv/plugins"] :=
  ⟨(constructorLocations_seeds_when_empty linuxEnvironment ["/srv/plugins"] []).1 rfl,
    (constructorLocations_seeds_when_empty linuxEnvironment ["/srv/plugins"] []).2.1 rfl,
    (constructorLocations_seeds_when_empty linuxEnvironment ["/srv/plugins"] []).2.2.2
      (by decide)⟩

/-- C16 fails as stated: on Linux, after `addPluginLocation("/srv/plugins")`
made before the first construction, the list after the construction is
`/srv/plugins` alone; neither `homePath + "/.tufao"` nor the install location
is in it. -/
theorem constructorLocations_skips_defaults :
    linuxEnvironment.platform = Platform.other ∧
    linuxEnvironment.isDir linuxEnvironment.applicationDirPath = true ∧
    constructorLocations linuxEnvironment (addPluginLocations [] ["/srv/plugins"])
      = ["/srv/plugins"] ∧
    linuxEnvironment.homePath ++ "/.tufao"
      ∉ constructorLocations linuxEnvironment (addPluginLocations [] ["/srv/plugins"]) ∧
    linuxEnvironment.fileAbsolutePath linuxEnvironment.applicationDirPath
      ∉ constructorLocations linuxEnvironment (addPluginLocations [] ["/srv/plugins"]) :=
  ⟨rfl, rfl, by decide, by decide, by decide⟩

/-- C17: `handleRequest` never changes the registry: whenever it returns, the
`handlers` map of the state is the one it started from (the same keys, each
with the same descriptor), and so is the context; the same holds for
`processRequest`, while `selectMethod` returns an index only. In particular a
request for a class that is not registered returns `false` and the class is
still not a key of the registry. -/
theorem handleRequest_keeps_registry (qHash : QString → Nat) (canConvert : Nat → Bool)
    (self : ClassHandlerManager) (url : QString) :
    (handleRequest qHash canConvert self url = none ∨
      ∃ handled after, handleRequest qHash canConvert self url = some (handled, after) ∧
        after.handlers = self.handlers ∧ after.m_context = self.m_context) ∧
    (∀ className methodName arguments result,
      processRequest qHash canConvert self className methodName arguments = some result →
      result.2.handlers = self.handlers) ∧
    (∀ className methodName rest,
      split url '/' = self.contextSegments ++ className :: methodName :: rest →
      rest.length ≤ 16 → QHash.contains self.handlers className = false →
      ∃ after, handleRequest qHash canConvert self url = some (false, after) ∧
        after.handlers = self.handlers ∧
        QHash.contains after.handlers className = false) := by
  refine ⟨?_, ?_, ?_⟩
  · cases h : handleRequest qHash canConvert self url with
    | none => exact Or.inl rfl
    | some result =>
      have hf := handleRequest_frame_of_some qHash canConvert self url result h
      exact Or.inr ⟨result.1, result.2, rfl, hf.1, hf.2⟩
  · intro className methodName arguments result h
    exact (processRequest_frame qHash canConvert self className methodName arguments result h).1
  · intro className methodName rest hs hlen hnew
    exact ⟨self.afterSetContext,
      handleRequest_of_unknown qHash canConvert self url className methodName rest hs hlen
        (Or.inl hnew), rfl, hnew⟩

/-- C17 at the handled request `/Widgets/get/id/42` and at the request
`/Gadgets/get/id/42` for a class that is not registered. -/
theorem handleRequest_keeps_registry_witness :
    (∃ after, handleRequest qHash31 canConvertFromString registeredWidgets "/Widgets/get/id/42"
        = some (true, after) ∧ after.handlers = registeredWidgets.handlers) ∧
    (∃ after, handleRequest qHash31 canConvertFromString registeredWidgets "/Gadgets/get/id/42"
        = some (false, after) ∧ after.handlers = registeredWidgets.handlers ∧
        QHash.contains after.handlers "Gadgets" = false) := by
  constructor
  · rcases (handleRequest_keeps_registry qHash31 canConvertFromString registeredWidgets
      "/Widgets/get/id/42").1 with h | ⟨handled, after, h, hh, _⟩
    · exact absurd h (by decide)
    · have hfst : (handleRequest qHash31 canConvertFromString registeredWidgets
          "/Widgets/get/id/42").map Prod.fst = some true := by decide
      rw [h] at hfst
      have hb : handled = true := by simpa using hfst
      subst hb
      exact ⟨after, h, hh⟩
  · exact (handleRequest_keeps_registry qHash31 canConvertFromString registeredWidgets
      "/Gadgets/get/id/42").2.2 "Gadgets" "get" ["id", "42"] (by decide) (by decide) (by decide)

/-- C18, as amended: for a registered handler, when `selectMethod` returns a
non-negative index, the operation at that index is one of the handler's
dispatchable operations and its signature hash (the 32-bit sum of the hashes
of its name and parameter names) equals the hash computed from the requested
method name, `request`, `response` and the argument keys; the operation invoked
is determined by that sum, not by the name and the argument names themselves. -/
theorem selectMethod_hash_match (qHash : QString → Nat) (self : ClassHandlerManager)
    (handler : ClassHandler) (methodName : QString) (arguments : QHash QString QString)
    (methodIndex : Int) (hreg : Registered qHash self handler)
    (hsel : selectMethod qHash self handler.objectName methodName arguments = some methodIndex)
    (hpos : methodIndex > -1) :
    ∃ entry ∈ handler.scanned, entry.2.isDispatchable = true ∧ (entry.1 : Int) = methodIndex ∧
      handler.method methodIndex = entry.2 ∧
      registerHash qHash entry.2 = selectHash qHash methodName (QHash.keys arguments) :=
  selectMethod_registered qHash self handler methodName arguments methodIndex hreg hsel hpos

/-- C18 at `Widgets` with `get(request, response, id)`, the method name `get`
and the argument key `id`: index 1 is selected, the slot `get`. -/
theorem selectMethod_hash_match_witness :
    selectMethod qHash31 registeredWidgets "Widgets" "get" [("id", "42")] = some 1 ∧
    ∃ entry ∈ widgets.scanned, entry.2.isDispatchable = true ∧ (entry.1 : Int) = 1 ∧
      widgets.method 1 = entry.2 ∧
      registerHash qHash31 entry.2 = selectHash qHash31 "get" (QHash.keys [("id", "42")]) :=
  ⟨by decide,
    selectMethod_hash_match qHash31 registeredWidgets widgets "get" [("id", "42")] 1
      ⟨emptyManager "", registeredWidgets, by decide, by decide, by decide, rfl⟩ (by decide)
      (by decide)⟩

/-- C18 fails as stated: `Widgets` has the slots `id(request, response)` (index
1) and `get(request, response, id)` (index 2); for the method name `id` and the
argument key `get`, `selectMethod` returns 2, and the operation at index 2 is
named `get`, not `id`, with the parameter `id`, not `get`. -/
theorem selectMethod_returns_other_operation :
    registerHandler qHash31 (emptyManager "") widgetsWithId = some registeredWithId ∧
    selectMethod qHash31 registeredWithId "Widgets" "id" [("get", "1")] = some 2 ∧
    (widgetsWithId.method 2).name = "get" ∧
    (widgetsWithId.method 2).parameterNames = ["request", "response", "id"] ∧
    QHash.keys [(("get" : QString), ("1" : QString))] = ["get"] :=
  ⟨by decide, by decide, by decide, by decide, by decide⟩

/-- C19: on every path that reaches `processRequest` (context when configured,
class, method and an even number of at most sixteen further segments) the
argument map built by `handleRequest` has at most 8 entries; and for every
operation whose parameter names are `request`, `response` and then the keys of
that map in some order, the loop of `processRequest` returns without writing
outside the ten slots of `argumentTable` and `variants`, and every slot of
`variants` it has written has an index in the range 2..9. -/
theorem argumentTable_writes_in_range (canConvert : Nat → Bool)
    (self : ClassHandlerManager) (url className methodName : QString) (rest : List QString)
    (hs : split url '/' = self.contextSegments ++ className :: methodName :: rest)
    (hlen : rest.length ≤ 16) (heven : rest.length % 2 = 0) :
    ∃ arguments,
      buildArguments (split url '/') (split url '/').length
        (self.contextSegments.length + 2) [] = some arguments ∧
      arguments.length ≤ 8 ∧
      ∀ (method : QMetaMethod) (declared : List QString),
        method.parameterNames = "request" :: "response" :: declared →
        declared.Perm (QHash.keys arguments) →
        ∃ tables,
          fillArguments canConvert method arguments method.parameterCount 2 initialTables
            = some tables ∧
          tables.1.length = 10 ∧ tables.2.length = 10 ∧
          ∀ i value, tables.2.get? i = some (some value) → 2 ≤ i ∧ i ≤ 9 := by
  have hb := buildArguments_append [] (split url '/').length
    (self.contextSegments ++ [className, methodName]) rest [] heven
    (by rw [hs]; simp only [List.length_append, List.length_cons]; omega)
  have hsize : (insertPairs rest []).length ≤ 8 := by
    have := length_insertPairs rest []
    simp only [List.length_nil] at this
    omega
  refine ⟨insertPairs rest [], by simpa [hs] using hb, hsize, ?_⟩
  intro method declared hnames hperm
  apply fillArguments_in_range
  have hcount : method.parameters.length = method.parameterNames.length := by
    simp [QMetaMethod.parameterNames]
  have hkeys : declared.length = (insertPairs rest []).length := by
    rw [hperm.length_eq]; simp [QHash.keys]
  rw [hcount, hnames]
  simp only [List.length_cons]
  omega

/-- C19 at the path `/api/Points/move/x/1/y/2` and the slot `move(request, response, x, y)`. -/
theorem argumentTable_writes_in_range_witness :
    ∃ arguments,
      buildArguments (split "/api/Points/move/x/1/y/2" '/')
        (split "/api/Points/move/x/1/y/2" '/').length
        (apiPoints.contextSegments.length + 2) [] = some arguments ∧
      arguments.length ≤ 8 ∧
      ∀ (method : QMetaMethod) (declared : List QString),
        method.parameterNames = "request" :: "response" :: declared →
        declared.Perm (QHash.keys arguments) →
        ∃ tables,
          fillArguments canConvertFromString method arguments method.parameterCount 2
            initialTables = some tables ∧
          tables.1.length = 10 ∧ tables.2.length = 10 ∧
          ∀ i value, tables.2.get? i = some (some value) → 2 ≤ i ∧ i ≤ 9 :=
  argumentTable_writes_in_range canConvertFromString apiPoints "/api/Points/move/x/1/y/2"
    "Points" "move" ["x", "1", "y", "2"] (by decide) (by decide) (by decide)


/-- C20: every access `handleRequest` makes to the list of segments is in
range, so that its result is always one of the following, none of which is the
failure of a segment access. (1) The path is too short or too long: no segment
is read and the result is `false`. (2) A context is configured and segment 0
exists and differs from it: the result is `false`. (3) The segments are the
context (read at index 0 when one is configured), the class and the method,
read at the two indices behind the context, and at most sixteen more; when
their number is even, every key index the loop reaches is followed by a value
index below the number of segments, the loop returns the argument map, and the
result is the one computed from the class segment, the method segment and that
map. Hence `handleRequest` fails only when the registry holds a null
descriptor for the class segment or `processRequest` fails on the class
segment, the method segment and the argument map of the path. -/
theorem handleRequest_segments_in_range (qHash : QString → Nat) (canConvert : Nat → Bool)
    (self : ClassHandlerManager) (url : QString) :
    (self.minimumPathComponents ≤ (split url '/').length →
      (self.m_context ≠ "" → ∃ first, (split url '/').get? 0 = some first) ∧
      (∃ className methodName,
        (split url '/').get? self.contextSegments.length = some className ∧
        (split url '/').get? (self.contextSegments.length + 1) = some methodName) ∧
      (((split url '/').length - (self.contextSegments.length + 2)) % 2 = 0 →
        (∀ i, self.contextSegments.length + 2 ≤ i → i < (split url '/').length →
          (i - (self.contextSegments.length + 2)) % 2 = 0 →
          ∃ key value, (split url '/').get? i = some key ∧
            (split url '/').get? (i + 1) = some value) ∧
        ∃ arguments, buildArguments (split url '/') (split url '/').length
          (self.contextSegments.length + 2) [] = some arguments)) ∧
    ((((split url '/').length < self.minimumPathComponents ∨
          self.minimumPathComponents + 16 < (split url '/').length) ∧
        handleRequest qHash canConvert self url = some (false, self)) ∨
      (self.m_context ≠ "" ∧
        (∃ first, (split url '/').get? 0 = some first ∧ first ≠ self.m_context) ∧
        handleRequest qHash canConvert self url = some (false, self)) ∨
      ∃ className methodName rest,
        split url '/' = self.contextSegments ++ className :: methodName :: rest ∧
        rest.length ≤ 16 ∧
        (self.m_context ≠ "" → (split url '/').get? 0 = some self.m_context) ∧
        (split url '/').get? self.contextSegments.length = some className ∧
        (split url '/').get? (self.contextSegments.length + 1) = some methodName ∧
        (rest.length % 2 = 0 →
          (∀ i, self.contextSegments.length + 2 ≤ i → i < (split url '/').length →
            (i - (self.contextSegments.length + 2)) % 2 = 0 →
            ∃ key value, (split url '/').get? i = some key ∧
              (split url '/').get? (i + 1) = some value) ∧
          buildArguments (split url '/') (split url '/').length
            (self.contextSegments.length + 2) [] = some (insertPairs rest [])) ∧
        handleRequest qHash canConvert self url =
          if rest.length % 2 = 0 then
            match QHash.find? self.handlers className with
            | none => some (false, self.afterSetContext)
            | some none => none
            | some (some descriptor) =>
              if descriptor.methodNames.contains methodName then
                processRequest qHash canConvert self.afterSetContext className methodName
                  (insertPairs rest [])
              else some (false, self.afterSetContext)
          else some (false, self.afterSetContext)) ∧
    (handleRequest qHash canConvert self url = none →
      ∃ className methodName rest,
        split url '/' = self.contextSegments ++ className :: methodName :: rest ∧
        rest.length ≤ 16 ∧ rest.length % 2 = 0 ∧
        (QHash.find? self.handlers className = some none ∨
          ∃ descriptor, QHash.find? self.handlers className = some (some descriptor) ∧
            methodName ∈ descriptor.methodNames ∧
            processRequest qHash canConvert self.afterSetContext className methodName
              (insertPairs rest []) = none)) := by
  have hctxlen : self.contextSegments.length + 2 = self.minimumPathComponents := by
    unfold ClassHandlerManager.contextSegments ClassHandlerManager.minimumPathComponents
    split <;> rfl
  have hsome : ∀ i, i < (split url '/').length → ∃ s, (split url '/').get? i = some s := by
    intro i hi
    exact ⟨(split url '/')[i], by rw [List.get?_eq_getElem?, List.getElem?_eq_getElem hi]⟩
  have hpairs : ∀ i, self.contextSegments.length + 2 ≤ i → i < (split url '/').length →
      ((split url '/').length - (self.contextSegments.length + 2)) % 2 = 0 →
      (i - (self.contextSegments.length + 2)) % 2 = 0 →
      ∃ key value, (split url '/').get? i = some key ∧
        (split url '/').get? (i + 1) = some value := by
    intro i hlo hhi heven hpar
    obtain ⟨k, hk⟩ := hsome i hhi
    obtain ⟨v, hv⟩ := hsome (i + 1) (by omega)
    exact ⟨k, v, hk, hv⟩
  -- the shape of a path that passes the length and context checks
  have hshape : ∀ className methodName rest,
      split url '/' = self.contextSegments ++ className :: methodName :: rest →
      (self.m_context ≠ "" → (split url '/').get? 0 = some self.m_context) ∧
      (split url '/').get? self.contextSegments.length = some className ∧
      (split url '/').get? (self.contextSegments.length + 1) = some methodName ∧
      (rest.length % 2 = 0 →
        buildArguments (split url '/') (split url '/').length
          (self.contextSegments.length + 2) [] = some (insertPairs rest [])) := by
    intro className methodName rest hs
    refine ⟨?_, ?_, ?_, ?_⟩
    · intro hctx
      rw [hs]
      simp [ClassHandlerManager.contextSegments, hctx]
    · rw [hs, List.get?_eq_getElem?, List.getElem?_append_right (Nat.le_refl _)]
      simp
    · rw [hs, List.get?_eq_getElem?, List.getElem?_append_right (Nat.le_add_right _ _)]
      simp
    · intro heven
      have hb := buildArguments_append [] (split url '/').length
        (self.contextSegments ++ [className, methodName]) rest [] heven
        (by rw [hs]; simp only [List.length_append, List.length_cons]; omega)
      simpa [hs] using hb
  refine ⟨?_, ?_, ?_⟩
  · intro hmin
    refine ⟨?_, ?_, ?_⟩
    · intro hctx
      apply hsome
      have : self.minimumPathComponents = 3 := by
        simp [ClassHandlerManager.minimumPathComponents, hctx]
      omega
    · obtain ⟨c, hc⟩ := hsome self.contextSegments.length (by omega)
      obtain ⟨m, hm⟩ := hsome (self.contextSegments.length + 1) (by omega)
      exact ⟨c, m, hc, hm⟩
    · intro heven
      refine ⟨fun i hlo hhi hpar => hpairs i hlo hhi heven hpar, ?_⟩
      have hsplit : split url '/'
          = (split url '/').take (self.contextSegments.length + 2)
            ++ (split url '/').drop (self.contextSegments.length + 2) :=
        (List.take_append_drop _ _).symm
      have htake : ((split url '/').take (self.contextSegments.length + 2)).length
          = self.contextSegments.length + 2 := by
        rw [List.length_take]; omega
      have hb := buildArguments_append [] (split url '/').length
        ((split url '/').take (self.contextSegments.length + 2))
        ((split url '/').drop (self.contextSegments.length + 2)) []
        (by rw [List.length_drop]; exact heven)
        (by rw [List.length_drop]; omega)
      rw [List.nil_append, ← hsplit, htake] at hb
      exact ⟨_, hb⟩
  · by_cases hlen : (split url '/').length < self.minimumPathComponents ∨
        self.minimumPathComponents + 16 < (split url '/').length
    · exact Or.inl ⟨hlen, handleRequest_of_length qHash canConvert self url hlen⟩
    · by_cases hfirst : self.m_context ≠ "" → (split url '/').head? = some self.m_context
      · obtain ⟨className, methodName, rest, hs, hl⟩ :=
          split_decompose self url (by omega) hfirst
        obtain ⟨h0, h1, h2, h3⟩ := hshape className methodName rest hs
        have hrest : rest.length = (split url '/').length
            - (self.contextSegments.length + 2) := by omega
        refine Or.inr (Or.inr ⟨className, methodName, rest, hs, by omega, h0, h1, h2, ?_,
          handleRequest_accepted qHash canConvert self url className methodName rest hs
            (by omega)⟩)
        intro heven
        exact ⟨fun i hlo hhi hpar => hpairs i hlo hhi (by rw [← hrest]; exact heven) hpar,
          h3 heven⟩
      · push_neg at hfirst
        obtain ⟨hctx, hhead⟩ := hfirst
        have hmin3 : self.minimumPathComponents = 3 := by
          simp [ClassHandlerManager.minimumPathComponents, hctx]
        obtain ⟨first, hf⟩ := hsome 0 (by omega)
        refine Or.inr (Or.inl ⟨hctx, ⟨first, hf, ?_⟩,
          handleRequest_of_foreign_context qHash canConvert self url hctx hhead⟩)
        intro hfc
        apply hhead
        cases hsp : split url '/' with
        | nil => rw [hsp] at hf; simp at hf
        | cons a l =>
          rw [hsp] at hf
          simp only [List.get?_cons_zero, Option.some.injEq] at hf
          simp [hf, hfc]
  · intro hnone
    by_cases hlen : (split url '/').length < self.minimumPathComponents ∨
        self.minimumPathComponents + 16 < (split url '/').length
    · rw [handleRequest_of_length qHash canConvert self url hlen] at hnone
      simp at hnone
    · by_cases hfirst : self.m_context ≠ "" → (split url '/').head? = some self.m_context
      · obtain ⟨className, methodName, rest, hs, hl⟩ :=
          split_decompose self url (by omega) hfirst
        rw [handleRequest_accepted qHash canConvert self url className methodName rest hs
          (by omega)] at hnone
        by_cases heven : rest.length % 2 = 0
        · simp only [heven, if_true] at hnone
          refine ⟨className, methodName, rest, hs, by omega, heven, ?_⟩
          cases hf : QHash.find? self.handlers className with
          | none => simp [hf] at hnone
          | some v =>
            cases v with
            | none => exact Or.inl rfl
            | some d =>
              simp only [hf] at hnone
              split at hnone
              · rename_i hm
                exact Or.inr ⟨d, rfl, by simpa using hm, hnone⟩
              · simp at hnone
        · simp [heven] at hnone
      · push_neg at hfirst
        rw [handleRequest_of_foreign_context qHash canConvert self url hfirst.1 hfirst.2]
          at hnone
        simp at hnone

/-- C20 at the path `/api/Points/move/x/1/y/2` with the context `api`: the
context, class and method segments are read in range, the loop returns the
argument map, and the request does not fail. -/
theorem handleRequest_segments_in_range_witness :
    (split "/api/Points/move/x/1/y/2" '/').get? 0 = some "api" ∧
    (∃ className methodName,
      (split "/api/Points/move/x/1/y/2" '/').get? apiPoints.contextSegments.length
        = some className ∧
      (split "/api/Points/move/x/1/y/2" '/').get? (apiPoints.contextSegments.length + 1)
        = some methodName) ∧
    (∃ arguments, buildArguments (split "/api/Points/move/x/1/y/2" '/')
      (split "/api/Points/move/x/1/y/2" '/').length
      (apiPoints.contextSegments.length + 2) [] = some arguments) ∧
    handleRequest qHash31 canConvertFromString apiPoints "/api/Points/move/x/1/y/2" ≠ none := by
  refine ⟨by decide,
    ((handleRequest_segments_in_range qHash31 canConvertFromString apiPoints
      "/api/Points/move/x/1/y/2").1 (by decide)).2.1,
    (((handleRequest_segments_in_range qHash31 canConvertFromString apiPoints
      "/api/Points/move/x/1/y/2").1 (by decide)).2.2 (by decide)).2, ?_⟩
  intro hnone
  obtain ⟨className, methodName, rest, hs, _, _, hcase⟩ :=
    (handleRequest_segments_in_range qHash31 canConvertFromString apiPoints
      "/api/Points/move/x/1/y/2").2.2 hnone
  have hsplit : split "/api/Points/move/x/1/y/2" '/'
      = ["api", "Points", "move", "x", "1", "y", "2"] := by decide
  have hctx : apiPoints.contextSegments = ["api"] := by decide
  rw [hsplit, hctx] at hs
  simp only [List.singleton_append, List.cons.injEq, true_and] at hs
  obtain ⟨hc, hm, hr⟩ := hs
  subst hc hm hr
  rcases hcase with h | ⟨descriptor, _, _, h⟩
  · exact absurd h (by decide)
  · exact absurd h (by decide)

end Tufao
